import Mathlib

/-!
Shallow embedding of the RAG core of the contract-intelligence platform:
the FAISS indexer (`src/ai/rag/faiss_indexer.py`) and the query engine
(`src/ai/rag/faiss_query.py`).

Modelling conventions:
- Python text is `List Char` (document content, chunks, answers); short
  identifiers (document ids, chunk ids, filter keys, type tags) are `String`.
- Python floats are modelled as `ℚ` (exact arithmetic).
- Dynamically-typed metadata/filter values are modelled by `PyScalar` /
  `PyVal`; operations that can raise `TypeError` in Python return
  `Except String _`.
- Fallible code paths (embedding faults, LLM faults) are modelled in
  `Except String _`; a Python `try/except` handler is modelled by matching
  on the `Except` value.
-/

namespace RAG

/-! ## Dynamically-typed Python values

Metadata dictionaries and filter sets hold dynamically typed values.  The
repository only ever stores scalars (strings, numbers, `None`) at the leaf
level, and filter values are scalars, lists of scalars, or string-keyed
dictionaries of scalars (the `date_range` object), so a two-level model
suffices. -/

/-- A scalar Python value: a string, a number, or `None`. -/
inductive PyScalar where
  | str (s : String)
  | num (q : ℚ)
  | none
deriving DecidableEq, Repr

/-- A Python value as used in filter sets: a scalar, a list of scalars, or a
string-keyed dict of scalars. -/
inductive PyVal where
  | scalar (v : PyScalar)
  | list (l : List PyScalar)
  | dict (d : List (String × PyScalar))
deriving DecidableEq, Repr

/-- `d.get(k)`: dictionary lookup with default `None`. -/
def pyGet (d : List (String × PyScalar)) (k : String) : PyScalar :=
  (d.lookup k).getD PyScalar.none

/-- `d.get(k, dflt)`: dictionary lookup with an explicit default. -/
def pyGetD (d : List (String × PyScalar)) (k : String) (dflt : PyScalar) : PyScalar :=
  (d.lookup k).getD dflt

/-- Python truthiness of a scalar: `None`, `""` and `0` are falsy. -/
def pyTruthy : PyScalar → Bool
  | .str s => s ≠ ""
  | .num q => q ≠ 0
  | .none => false

/-- Python `x in container` for a scalar `x`.  Membership in a list compares
with `==` (never raises); membership in a dict checks the keys; membership in
a string is substring search and raises `TypeError` unless `x` is a string;
`x in scalar` raises `TypeError` for numbers and `None`. -/
def pyIn (x : PyScalar) : PyVal → Except String Bool
  | .list l => .ok (decide (x ∈ l))
  | .dict d => .ok (match x with
      | .str k => d.any (fun p => p.1 = k)
      | _ => false)
  | .scalar (.str s) => match x with
      | .str t => .ok (decide (t.toList <:+: s.toList))
      | _ => .error "TypeError: in requires string as left operand"
  | .scalar _ => .error "TypeError: argument is not iterable"

/-- Python `container[k]` for a string key: only dictionaries support string
subscripts; everything else raises `TypeError`. -/
def pySubscript (v : PyVal) (k : String) : Except String PyScalar :=
  match v with
  | .dict d => match d.lookup k with
      | some x => .ok x
      | Option.none => .error "KeyError"
  | _ => .error "TypeError: value is not subscriptable"

/-- Python `a < b` on scalars: numbers compare numerically, strings compare
lexicographically, every mixed or `None` comparison raises `TypeError`. -/
def pyLt (a b : PyScalar) : Except String Bool :=
  match a, b with
  | .num x, .num y => .ok (decide (x < y))
  | .str x, .str y => .ok (decide (x < y))
  | _, _ => .error "TypeError: unorderable types"

/-- Python `a < v` where the right operand is a filter value (`PyVal`):
comparing a scalar with a list or dict raises `TypeError`. -/
def pyLtV (a : PyScalar) (v : PyVal) : Except String Bool :=
  match v with
  | .scalar s => pyLt a s
  | _ => .error "TypeError: unorderable types"

/-- Python `a > v` on a scalar and a filter value (`a > b` iff `b < a`). -/
def pyGtV (a : PyScalar) (v : PyVal) : Except String Bool :=
  match v with
  | .scalar s => pyLt s a
  | _ => .error "TypeError: unorderable types"

/-! ## Chunker (`FAISSIndexer._chunk_text`, faiss_indexer.py:299-332) -/

/-- Python slice `text[a:b]` for `0 ≤ a ≤ b` (out-of-range bounds clamp). -/
def pySlice (text : List Char) (a b : Nat) : List Char :=
  (text.drop a).take (b - a)

/-- Python `str.strip()`: remove leading and trailing whitespace. -/
def pyStrip (l : List Char) : List Char :=
  ((l.dropWhile Char.isWhitespace).reverse.dropWhile Char.isWhitespace).reverse

/-- Python `str.rfind(c)`: index of the last occurrence of `c`, `-1` if
absent. -/
def rfind : List Char → Char → Int
  | [], _ => -1
  | a :: l, c =>
      let r := rfind l c
      if r ≥ 0 then r + 1 else if a = c then 0 else -1

/-- `max(w.rfind('.'), w.rfind('!'), w.rfind('?'))` from
faiss_indexer.py:314-318: index of the last sentence terminator in the
window, `-1` if there is none. -/
def lastTerm (w : List Char) : Int :=
  max (max (rfind w '.') (rfind w '!')) (rfind w '?')

/-- The cut position of one chunk window (faiss_indexer.py:308-321): the
tentative end is `start + chunkSize`; if that is interior to the text and the
last sentence terminator of the window sits strictly past half the window,
cut just after the terminator, else cut at the hard boundary.
`2 * last > chunkSize` over `Int` is exactly Python's
`last_sentence_end > chunk_size * 0.5` (multiplication by 0.5 is exact in
binary floating point). -/
def cutEnd (text : List Char) (chunkSize start : Nat) : Nat :=
  let tentative := start + chunkSize
  if tentative < text.length then
    let w := pySlice text start tentative
    let last := lastTerm w
    if 2 * last > (chunkSize : Int) then start + last.toNat + 1 else tentative
  else tentative

/-- The chunking loop of `_chunk_text` (faiss_indexer.py:304-332).  `fuel`
bounds the recursion; the caller passes `text.length + 1`, which is never
exhausted for the default parameters because every iteration advances
`start` by at least `chunkSize / 2 + 1 - overlap ≥ 1` characters. -/
def chunkLoop (text : List Char) (chunkSize overlap : Nat) :
    Nat → Nat → List (List Char)
  | 0, _ => []
  | fuel + 1, start =>
    if start < text.length then
      let e := cutEnd text chunkSize start
      let chunk := pyStrip (pySlice text start e)
      let rest :=
        if e - overlap ≥ text.length then []
        else chunkLoop text chunkSize overlap fuel (e - overlap)
      if chunk = [] then rest else chunk :: rest
    else []

/-- `FAISSIndexer._chunk_text(text, chunk_size=512, overlap=50)`
(faiss_indexer.py:299-332). -/
def chunkText (text : List Char) (chunkSize : Nat := 512) (overlap : Nat := 50) :
    List (List Char) :=
  if text.length ≤ chunkSize then [text]
  else chunkLoop text chunkSize overlap (text.length + 1) 0

/-- Is `c` one of the sentence terminators `.`, `!`, `?`. -/
def isTermB (c : Char) : Bool := c = '.' || c = '!' || c = '?'

/-- Does position `j` of `w` hold a sentence terminator? -/
def termAt (w : List Char) (j : Nat) : Bool :=
  match w[j]? with
  | some d => isTermB d
  | _ => false

/-- Two adjacent chunks share a non-empty overlap region of length at most
`ov`: a common non-empty string that is a suffix of the first chunk and a
prefix of the second. -/
def adjOverlap (ov : Nat) (a b : List Char) : Prop :=
  ∃ s, s ≠ [] ∧ s.length ≤ ov ∧ s <:+ a ∧ s <+: b

/-! ## Indexer state (`FAISSIndexer`, faiss_indexer.py)

The Vector Index (`faiss.IndexFlatIP`) is a list of vectors (`List ℚ`); the
Chunk Store (`self.document_store`, a Python dict keyed by integer index
position) is an association list `List (Nat × ChunkMeta)` whose keys are kept
distinct by construction.  The embedding model is an external collaborator
and enters as a function parameter `embed : List Char → List ℚ`. -/

/-- A document submitted to `add_documents` (faiss_indexer.py:115-121). -/
structure Document where
  document_id : String
  title : String
  content : List Char
  metadata : List (String × PyScalar)
  document_type : PyScalar
  timestamp : PyScalar
deriving DecidableEq, Repr

/-- One Chunk Store entry (the `chunk_metadata` dict of
faiss_indexer.py:131-140). -/
structure ChunkMeta where
  document_id : String
  chunk_id : String
  chunk_index : Nat
  content : List Char
  title : String
  metadata : List (String × PyScalar)
  document_type : PyScalar
  timestamp : PyScalar
deriving DecidableEq, Repr

/-- The mutable state of a `FAISSIndexer`: the Vector Index rows and the
Chunk Store.  A freshly initialized indexer (or one whose snapshot load
failed) has both empty; `self.index is None` is represented by the empty
row list, which is observationally equivalent for the modelled operations. -/
structure FAISSState where
  index : List (List ℚ)
  store : List (Nat × ChunkMeta)
deriving DecidableEq, Repr

/-- The empty indexer state. -/
def emptyState : FAISSState := { index := [], store := [] }

/-- The chunk-preparation loop of `add_documents`
(faiss_indexer.py:112-141): documents with a falsy `document_id` or falsy
`content` are skipped; every other document is chunked, and one Chunk Store
entry is prepared per chunk, in chunk order.  The texts to embed are the
`content` fields of the prepared entries, in the same order (the Python code
builds `texts_to_embed` and `document_metadata` in lockstep). -/
def prepareChunks (docs : List Document) : List ChunkMeta :=
  docs.flatMap fun d =>
    if d.document_id = "" ∨ d.content = [] then []
    else
      let chunks := chunkText d.content
      chunks.enum.map fun p =>
        { document_id := d.document_id
          chunk_id :=
            if chunks.length > 1 then
              d.document_id ++ "_chunk_" ++ toString p.1
            else d.document_id
          chunk_index := p.1
          content := p.2
          title := d.title
          metadata := d.metadata
          document_type := d.document_type
          timestamp := d.timestamp }

/-- `FAISSIndexer.add_documents` (faiss_indexer.py:100-177): prepare chunks,
embed their texts in one batch, append the embeddings to the Vector Index
**without normalization** (line 158-160), and register the Chunk Store
entries at keys `start_index + i` where `start_index = self.index.ntotal`
before the append (lines 156-165).  Returns `(new state, number of chunks)`.
An embedding fault would propagate (line 175-177 re-raises); the happy path
is modelled, with `embed` total. -/
def addDocuments (embed : List Char → List ℚ) (docs : List Document)
    (st : FAISSState) : FAISSState × Nat :=
  if docs = [] then (st, 0)
  else
    let metas := prepareChunks docs
    if metas = [] then (st, 0)
    else
      let embeddings := (metas.map (·.content)).map embed
      let startIndex := st.index.length
      ({ index := st.index ++ embeddings
         store := st.store ++ metas.enum.map fun p => (startIndex + p.1, p.2) },
       metas.length)

/-- The deletion loop of `delete_documents` (faiss_indexer.py:264-269): for
each collected key, if it is still in the store, delete it (`del`) and count
it. -/
def delLoop : List Nat → List (Nat × ChunkMeta) × Nat → List (Nat × ChunkMeta) × Nat
  | [], acc => acc
  | i :: rest, (store, cnt) =>
      if store.any (fun e => e.1 = i) then
        delLoop rest (store.filter (fun e => e.1 ≠ i), cnt + 1)
      else delLoop rest (store, cnt)

/-- `FAISSIndexer.delete_documents` (faiss_indexer.py:243-278): collect the
Chunk Store keys whose entry's `document_id` is in `ids`
(lines 252-255), then delete exactly those keys from the store
(lines 264-269).  The Vector Index is never touched (tombstone deletion).
Returns `(new state, deleted count)`. -/
def deleteDocuments (ids : List String) (st : FAISSState) : FAISSState × Nat :=
  if st.index = [] then (st, 0)
  else
    let indicesToRemove :=
      (st.store.filter (fun e => e.2.document_id ∈ ids)).map (·.1)
    if indicesToRemove = [] then (st, 0)
    else
      let r := delLoop indicesToRemove (st.store, 0)
      ({ st with store := r.1 }, r.2)

/-- The stats reported by `get_index_stats` (faiss_indexer.py:280-297).
`index_size_bytes`, `embedding_dimension` and `model` depend on the file
system and the loaded model and are not modelled. -/
structure IndexStats where
  total_vectors : Nat
  active_documents : Nat
  total_chunks : Nat
deriving DecidableEq, Repr

/-- `FAISSIndexer.get_index_stats` (faiss_indexer.py:280-297):
`total_vectors = self.index.ntotal`, `active_documents` is the number of
distinct `document_id`s among the live Chunk Store entries
(`len(set(...))`), `total_chunks = len(self.document_store)`. -/
def getIndexStats (st : FAISSState) : IndexStats :=
  { total_vectors := st.index.length
    active_documents := ((st.store.map fun e => e.2.document_id).dedup).length
    total_chunks := st.store.length }

/-! ### Normalization (`faiss.normalize_L2`) -/

/-- Squared L2 norm of a vector. -/
def sumSq (v : List ℚ) : ℚ := (v.map fun x => x * x).sum

/-- Integer square root (the number of `k ≤ n` with `k * k ≤ n`, minus
one). -/
def natSqrt (n : Nat) : Nat :=
  ((List.range (n + 1)).filter fun k => k * k ≤ n).length - 1

/-- Exact rational square root for perfect squares (numerator and
denominator both perfect squares); used to model `faiss.normalize_L2` on
such vectors. -/
def ratSqrt (q : ℚ) : ℚ := (natSqrt q.num.toNat : ℚ) / (natSqrt q.den : ℚ)

/-- `faiss.normalize_L2`: divide every component by the vector's L2 norm.
Exact in this rational model on vectors whose squared norm is a perfect
square. -/
def normalizeL2 (v : List ℚ) : List ℚ := v.map fun x => x / ratSqrt (sumSq v)

/-- The query-vector preparation of `FAISSIndexer.search`
(faiss_indexer.py:194-198): the query is embedded and the resulting vector
is L2-normalized before the inner-product search. -/
def searchQueryVector (embed : List Char → List ℚ) (q : List Char) : List ℚ :=
  normalizeL2 (embed q)

/-! ### Mutation sequences.  `add_documents` and `delete_documents` are the
only operations that mutate the index/store pair. -/

/-- One mutating operation on the indexer. -/
inductive Op where
  | add (docs : List Document)
  | del (ids : List String)

/-- Apply one operation, discarding the returned count. -/
def applyOp (embed : List Char → List ℚ) (st : FAISSState) : Op → FAISSState
  | .add docs => (addDocuments embed docs st).1
  | .del ids => (deleteDocuments ids st).1

/-- Apply a sequence of operations to a state, oldest first. -/
def applyOps (embed : List Char → List ℚ) (st : FAISSState) : List Op → FAISSState
  | [] => st
  | op :: rest => applyOps embed (applyOp embed st op) rest

/-! ## Filter Evaluator (`FAISSIndexer._match_filters`, faiss_indexer.py:334-382) -/

/-- One membership-filter step, the repeated
`if <field> not in filter_value: return False` pattern of `_match_filters`
(faiss_indexer.py:340-363): evaluate the membership test (which may raise),
return `False` on a failed test, otherwise continue with the rest of the
chain. -/
def memberCheck (x : PyScalar) (v : PyVal) (next : Except String Bool) :
    Except String Bool := do
  let b ← pyIn x v
  if !b then pure false else next

/-- The body of `_match_filters` (the `for filter_key, filter_value in
filters.items()` chain, faiss_indexer.py:337-378), with every Python
operation that can raise modelled in `Except`.  Filter sets are association
lists in iteration order. -/
def matchFiltersBody (md : ChunkMeta) : List (String × PyVal) → Except String Bool
  | [] => .ok true
  | (k, v) :: rest =>
    if k = "project_ids" then
      memberCheck (pyGet md.metadata "project_id") v (matchFiltersBody md rest)
    else if k = "contractors" then
      memberCheck (pyGet md.metadata "contractor") v (matchFiltersBody md rest)
    else if k = "statuses" then
      memberCheck (pyGet md.metadata "status") v (matchFiltersBody md rest)
    else if k = "document_types" then
      memberCheck md.document_type v (matchFiltersBody md rest)
    else if k = "categories" then
      memberCheck (pyGet md.metadata "category") v (matchFiltersBody md rest)
    else if k = "confidence_min" then do
      let b ← pyLtV (pyGetD md.metadata "confidence" (.num 1)) v
      if b then pure false else matchFiltersBody md rest
    else if k = "date_range" then
      if pyTruthy md.timestamp then do
        let hasStart ← pyIn (.str "start") v
        let startViolated ←
          if hasStart then do
            let s ← pySubscript v "start"
            pyLtV md.timestamp (.scalar s)
          else pure false
        if startViolated then pure false
        else do
          let hasEnd ← pyIn (.str "end") v
          let endViolated ←
            if hasEnd then do
              let e ← pySubscript v "end"
              pyGtV md.timestamp (.scalar e)
            else pure false
          if endViolated then pure false else matchFiltersBody md rest
      else matchFiltersBody md rest
    else matchFiltersBody md rest

/-- `FAISSIndexer._match_filters` (faiss_indexer.py:334-382): the whole body
runs under `try/except`; any raised exception is logged and converted to
`False` (lines 380-382). -/
def matchFilters (md : ChunkMeta) (filters : List (String × PyVal)) : Bool :=
  match matchFiltersBody md filters with
  | .ok b => b
  | .error _ => false

/-- Stated from the spec's wording for the membership filters: the chunk
field that each membership filter key constrains (`project_ids` →
`metadata.project_id`, `contractors` → `metadata.contractor`, `statuses` →
`metadata.status`, `document_types` → the chunk's `document_type`,
`categories` → `metadata.category`); compare with the lookups inside
`matchFiltersBody`. -/
def chunkFieldFor (md : ChunkMeta) : String → PyScalar
  | "project_ids" => pyGet md.metadata "project_id"
  | "contractors" => pyGet md.metadata "contractor"
  | "statuses" => pyGet md.metadata "status"
  | "document_types" => md.document_type
  | "categories" => pyGet md.metadata "category"
  | _ => PyScalar.none

/-! ## Query engine (`FAISSQueryEngine`, faiss_query.py)

The retrieval back ends (the indexer's vector search, which re-raises
embedding faults, and the keyword scan) and the LLM chat-completion call are
external effects; they enter as `Except`-valued parameters.  A Python
`try/except` corresponds to matching on the `Except` value. -/

/-- One search-result dict as built by `FAISSIndexer.search`
(faiss_indexer.py:222-231) and `_keyword_search` (faiss_query.py:151-160). -/
structure SearchResult where
  document_id : String
  chunk_id : String
  content : List Char
  title : String
  score : ℚ
  metadata : List (String × PyScalar)
  document_type : PyScalar
  timestamp : PyScalar
deriving DecidableEq, Repr

/-- One pass of the fusion loops of `_merge_results`
(faiss_query.py:184-197): walk the results in order, skip any whose
`chunk_id` was already seen, record the rest (transformed by `tf`) and add
their `chunk_id`s to the seen set. -/
def addResults (tf : SearchResult → SearchResult) :
    List SearchResult → List String → List SearchResult × List String
  | [], seen => ([], seen)
  | r :: rest, seen =>
      if r.chunk_id ∈ seen then addResults tf rest seen
      else
        let p := addResults tf rest (r.chunk_id :: seen)
        (tf r :: p.1, p.2)

/-- The keyword-hit rescoring of `_merge_results` (faiss_query.py:196):
`result["score"] = result["score"] * 0.8 + 0.2`. -/
def boostKeyword (r : SearchResult) : SearchResult :=
  { r with score := r.score * 0.8 + 0.2 }

/-- `FAISSQueryEngine._merge_results` (faiss_query.py:171-205): seed with
the semantic hits (deduplicated by `chunk_id`), append keyword hits whose
`chunk_id` is new, rescoring each as `0.8 * score + 0.2`, sort the combined
list by score descending (Python's stable `sort` with `reverse=True`), and
truncate to `max_results`.  The body is total, so the `except` fallback
(line 203-205) is unreachable. -/
def mergeResults (semanticResults keywordResults : List SearchResult)
    (maxResults : Nat) : List SearchResult :=
  let sem := addResults id semanticResults []
  let kw := addResults boostKeyword keywordResults sem.2
  ((sem.1 ++ kw.1).mergeSort fun a b => b.score ≤ a.score).take maxResults

/-- `FAISSQueryEngine._keyword_search` (faiss_query.py:122-169): the scan
itself is an external effect here (it reads the live Chunk Store); its
outcome enters as an `Except` value, and the method's own `try/except`
(lines 167-169) converts any fault into `[]`. -/
def keywordSearchCaught (outcome : Except String (List SearchResult)) :
    List SearchResult :=
  match outcome with
  | .ok rs => rs
  | .error _ => []

/-- The body of `FAISSQueryEngine._search_documents` without its exception
handler (faiss_query.py:87-116): dispatch on the search mode — `semantic`
uses the indexer's vector search with `k = max_results`, `keyword` uses the
keyword scan, anything else is hybrid: vector search and keyword scan with
`max_results // 2` each, fused by `_merge_results` — then drop every result
whose score is below the confidence threshold.  `sem k` is the outcome of
`self.indexer.search(query, k, filters)`, which re-raises embedding faults;
`kw k` is the outcome of the keyword scan before its own handler. -/
def searchDocumentsBody (sem kw : Nat → Except String (List SearchResult))
    (mode : String) (maxResults : Nat) (threshold : ℚ) :
    Except String (List SearchResult) := do
  let results ←
    if mode = "semantic" then sem maxResults
    else if mode = "keyword" then pure (keywordSearchCaught (kw maxResults))
    else do
      let s ← sem (maxResults / 2)
      let k := keywordSearchCaught (kw (maxResults / 2))
      pure (mergeResults s k maxResults)
  pure (results.filter fun r => threshold ≤ r.score)

/-- `FAISSQueryEngine._search_documents` (faiss_query.py:84-120): the body
runs under `try/except`; any fault is logged and an empty result list is
returned (lines 118-120). -/
def searchDocuments (sem kw : Nat → Except String (List SearchResult))
    (mode : String) (maxResults : Nat) (threshold : ℚ) : List SearchResult :=
  match searchDocumentsBody sem kw mode maxResults threshold with
  | .ok rs => rs
  | .error _ => []

/-- A source citation (`SourceReference`, faiss_query.py:228-235). -/
structure SourceReference where
  document_id : String
  document_name : String
  document_type : PyScalar
  text_snippet : List Char
  deep_link : Option String
  relevance_score : ℚ
deriving DecidableEq, Repr

/-- An answer (`QAAnswer`, faiss_query.py:251-258). -/
structure QAAnswer where
  answer : List Char
  confidence : ℚ
  answer_type : String
  sources : List SourceReference
  related_queries : Option (List String)
  explanation : Option String
deriving DecidableEq, Repr

/-- The result of `query` (`QAResult`, faiss_query.py:72-78). -/
structure QAResult where
  query : String
  answer : QAAnswer
  search_results_count : Nat
deriving DecidableEq, Repr

/-- A Q&A request (`QARequest`); `filters` are folded into the retrieval
parameters `sem`/`kw`. -/
structure QARequest where
  query : String
  search_mode : String
  max_results : Nat
  confidence_threshold : ℚ
  include_context : Bool
deriving DecidableEq, Repr

/-- `FAISSQueryEngine._create_deep_link` (faiss_query.py:380-392):
`f"/documents/{document_id}#chunk_{chunk_id}"`; the body is total, so the
`except → None` path is unreachable. -/
def createDeepLink (r : SearchResult) : Option String :=
  some ("/documents/" ++ r.document_id ++ "#chunk_" ++ r.chunk_id)

/-- One `SourceReference` as built in `_generate_answer`
(faiss_query.py:228-235): the snippet is the chunk text truncated to 200
characters with `"..."` appended when truncated. -/
def mkSource (r : SearchResult) : SourceReference :=
  { document_id := r.document_id
    document_name := r.title
    document_type := r.document_type
    text_snippet :=
      if r.content.length > 200 then r.content.take 200 ++ "...".toList
      else r.content
    deep_link := createDeepLink r
    relevance_score := r.score }

/-- `FAISSQueryEngine._generate_ai_answer` (faiss_query.py:271-323): build
the prompt from the query and the first 5 context texts, call the LLM
(`llm prompt` is the outcome of the chat completion, faiss_query.py:298-312),
strip the returned text, and score it 0.8 if it is longer than 20 characters
and does not contain an "insufficient information" phrase, else 0.3.  The
method's own `try/except` (lines 321-323) converts any fault into
`("Unable to generate AI answer", 0.2)` — it never re-raises. -/
def generateAiAnswer (llm : List Char → Except String (List Char))
    (query : String) (contextTexts : List (List Char)) : List Char × ℚ :=
  let combinedContext := (List.intercalate "\n\n".toList (contextTexts.take 5))
  let prompt :=
    "\nBased on the following context documents, answer the user's question.\nProvide a clear, concise answer based only on the information provided.\nIf the context doesn't contain enough information to answer the question, say so.\n\nQuestion: ".toList
      ++ query.toList ++ "\n\nContext:\n".toList ++ combinedContext
      ++ "\n\nAnswer:".toList
  match llm prompt with
  | .ok text =>
      let answer := pyStrip text
      let lowered := answer.map Char.toLower
      let confidence : ℚ :=
        if answer.length > 20 ∧
            ¬("don't have enough information".toList <:+: lowered) then 0.8
        else 0.3
      (answer, confidence)
  | .error _ => ("Unable to generate AI answer".toList, 0.2)

/-- `FAISSQueryEngine._generate_answer` (faiss_query.py:207-269).
`relatedQ` abstracts `_get_related_queries` (faiss_query.py:325-378), a pure
suggestion generator with its own `try/except` (it never raises);
`generatorConfigured` is `self.answer_generator is not None`
(faiss_query.py:36-38).  The body is total in this model because
`_generate_ai_answer` catches LLM faults itself, so the `except` fallback
producing the `error`-typed answer (lines 260-269) is unreachable. -/
def generateAnswer (llm : List Char → Except String (List Char))
    (relatedQ : String → Option (List String)) (generatorConfigured : Bool)
    (request : QARequest) (searchResults : List SearchResult) : QAAnswer :=
  match searchResults with
  | [] =>
      { answer := "I couldn't find any relevant information to answer your question.".toList
        confidence := 0
        answer_type := "not_found"
        sources := []
        related_queries := relatedQ request.query
        explanation := none }
  | top :: _ =>
      let sources := searchResults.map mkSource
      let contextTexts := searchResults.map (·.content)
      let synthesized := generatorConfigured && request.include_context
      let answerText :=
        if synthesized then (generateAiAnswer llm request.query contextTexts).1
        else top.content.take 500
      let confidence :=
        if synthesized then (generateAiAnswer llm request.query contextTexts).2
        else top.score
      { answer := answerText
        confidence := confidence
        answer_type := if synthesized then "synthesized" else "direct"
        sources := sources
        related_queries := relatedQ request.query
        explanation :=
          if synthesized then
            some ("Answer generated from " ++ toString sources.length
              ++ " relevant document(s)")
          else none }

/-- The fallback `error`-typed answer of `_generate_answer`'s exception
handler (faiss_query.py:263-269) — what the spec expects on synthesis
failure. -/
def errorAnswer : QAAnswer :=
  { answer := "An error occurred while generating the answer.".toList
    confidence := 0
    answer_type := "error"
    sources := []
    related_queries := none
    explanation := none }

/-- `FAISSQueryEngine.query` (faiss_query.py:46-82): retrieve (all retrieval
faults are absorbed by `_search_documents`), generate the answer, and wrap
both into a `QAResult`.  The outer `try/except` re-raises (line 82), so
`query` raises exactly when its body does; the body is fault-free in this
model, which the theorems make explicit. -/
def queryE (sem kw : Nat → Except String (List SearchResult))
    (llm : List Char → Except String (List Char))
    (relatedQ : String → Option (List String)) (generatorConfigured : Bool)
    (request : QARequest) : Except String QAResult := do
  let searchResults :=
    searchDocuments sem kw request.search_mode request.max_results
      request.confidence_threshold
  let answer := generateAnswer llm relatedQ generatorConfigured request searchResults
  pure
    { query := request.query
      answer := answer
      search_results_count := searchResults.length }

/-! ## Well-formedness and alignment invariants -/

/-- Basic well-formedness of a Chunk Store: the keys are distinct (it models
a Python dict) and every key addresses an existing Vector Index row. -/
def StoreWf (st : FAISSState) : Prop :=
  (st.store.map Prod.fst).Nodup ∧ ∀ e ∈ st.store, e.1 < st.index.length

/-- Positional alignment: the Chunk Store keys are distinct, and every entry
at key `p` addresses Vector Index row `p`, which holds exactly the embedding
of that entry's chunk text. -/
def Aligned (embed : List Char → List ℚ) (st : FAISSState) : Prop :=
  (st.store.map Prod.fst).Nodup ∧
    ∀ e ∈ st.store, e.1 < st.index.length ∧ st.index[e.1]? = some (embed e.2.content)

/-! ## Concrete inputs used by counterexamples and witnesses -/

/-- An embedding model returning a non-unit-norm vector (L2 norm 5). -/
def embed34 : List Char → List ℚ := fun _ => [3, 4]

/-- A short single-chunk document. -/
def docD1 : Document :=
  { document_id := "D1"
    title := "Contract"
    content := "Contractor shall submit monthly reports.".toList
    metadata := [("project_id", PyScalar.str "P1")]
    document_type := .str "contract"
    timestamp := .str "2024-01-01" }

/-- A second short document under another project. -/
def docD2 : Document :=
  { document_id := "D2"
    title := "SLA"
    content := "Payment is due within 30 days.".toList
    metadata := [("project_id", PyScalar.str "P2")]
    document_type := .str "contract"
    timestamp := .str "2024-02-01" }

/-- A Chunk Store entry whose `confidence` metadata is a string, so that
comparing it against a numeric `confidence_min` raises `TypeError`. -/
def badConfidenceMeta : ChunkMeta :=
  { document_id := "d"
    chunk_id := "d"
    chunk_index := 0
    content := []
    title := ""
    metadata := [("confidence", PyScalar.str "high")]
    document_type := .none
    timestamp := .none }

/-- A filter set with a numeric `confidence_min` threshold. -/
def confidenceFilter : List (String × PyVal) :=
  [("confidence_min", PyVal.scalar (.num 0.5))]

/-- Text of 512 spaces followed by one letter: longer than the default
chunk size and non-empty, but the first window strips to nothing. -/
def spacesText : List Char := List.replicate 512 ' ' ++ ['a']

/-- 520 letters with no whitespace and no sentence terminator. -/
def plainText : List Char := List.replicate 520 'a'

/-- Text whose first 512-character window has its last sentence terminator
exactly at index 256 — exactly 50% of the window. -/
def boundaryDotText : List Char :=
  List.replicate 256 'a' ++ '.' :: List.replicate 343 'b'

/-- Text whose first 512-character window has its last sentence terminator
at index 300 — strictly past 50% of the window. -/
def lateDotText : List Char :=
  List.replicate 300 'a' ++ '.' :: List.replicate 300 'b'

/-- A retrieval hit used by the query-engine scenarios. -/
def hitD1 : SearchResult :=
  { document_id := "D1"
    chunk_id := "D1"
    content := "Contractor shall submit monthly reports.".toList
    title := "Contract"
    score := 1
    metadata := []
    document_type := .str "contract"
    timestamp := .str "2024-01-01" }

/-- A request in semantic mode that asks for synthesized context. -/
def reqSemantic : QARequest :=
  { query := "What reports are required?"
    search_mode := "semantic"
    max_results := 10
    confidence_threshold := 0
    include_context := true }

/-- A vector-search outcome that raises (an embedding fault). -/
def semFailing : Nat → Except String (List SearchResult) :=
  fun _ => .error "embedding fault"

/-- A vector-search outcome returning one hit. -/
def semOneHit : Nat → Except String (List SearchResult) :=
  fun _ => .ok [hitD1]

/-- A keyword-scan outcome returning no hits. -/
def kwEmpty : Nat → Except String (List SearchResult) := fun _ => .ok []

/-- An LLM whose chat-completion call raises. -/
def llmFailing : List Char → Except String (List Char) :=
  fun _ => .error "rate limit"

/-- A Chunk Store entry tagged with project `P1` and type `contract`. -/
def taggedMd : ChunkMeta :=
  { document_id := "D1"
    chunk_id := "D1"
    chunk_index := 0
    content := "Contractor shall submit monthly reports.".toList
    title := "Contract"
    metadata := [("project_id", PyScalar.str "P1")]
    document_type := .str "contract"
    timestamp := .str "2024-01-01" }

/-- A membership-only filter set on project ids and document types. -/
def memberFilters : List (String × PyVal) :=
  [("project_ids", PyVal.list [.str "P1", .str "P2"]),
   ("document_types", PyVal.list [.str "contract"])]

/-- A constant embedding model. -/
def embedOne : List Char → List ℚ := fun _ => [1]

/-- The indexer state after ingesting `docD1` and `docD2`. -/
def twoDocState : FAISSState := (addDocuments embedOne [docD1, docD2] emptyState).1

/-- The answer produced by `query` when the one retrieved hit is `hitD1`,
synthesis is requested and the LLM call raises. -/
def c2Answer : QAAnswer :=
  match queryE semOneHit kwEmpty llmFailing (fun _ => Option.none) true reqSemantic with
  | .ok res => res.answer
  | .error _ => errorAnswer

/-! # Theorems -/

/-- **C1.** Insertion-time and query-time vectors are *not* normalized the
same way: `add_documents` appends the raw embeddings to the Vector Index
(faiss_indexer.py:158-160, no `normalize_L2`), while `search` L2-normalizes
the query vector (faiss_indexer.py:198).  With an embedding model returning
the vector `[3, 4]` (L2 norm 5), the stored vector has squared norm 25 ≠ 1
while the query vector compared against it has squared norm 1, so the
index-wide consistency policy demanded by the spec does not hold. -/
theorem normalization_policy_mismatch :
    (∃ v ∈ (addDocuments embed34 [docD1] emptyState).1.index, sumSq v ≠ 1) ∧
      sumSq (searchQueryVector embed34 "What reports are required?".toList) = 1 ∧
      ¬((∀ v ∈ (addDocuments embed34 [docD1] emptyState).1.index, sumSq v = 1) ↔
          sumSq (searchQueryVector embed34 "What reports are required?".toList) = 1) := by
  have hidx : (addDocuments embed34 [docD1] emptyState).1.index = [[3, 4]] := by decide
  have h25 : sumSq [(3 : ℚ), 4] = 25 := by norm_num [sumSq]
  have hsqrt : ratSqrt 25 = 5 := by
    unfold ratSqrt
    rw [show ((25 : ℚ)).num = 25 by norm_num, show ((25 : ℚ)).den = 1 by norm_num]
    rw [show (Int.toNat 25) = 25 from rfl]
    rw [show natSqrt 25 = 5 by decide, show natSqrt 1 = 1 by decide]
    norm_num
  have hquery : sumSq (searchQueryVector embed34 "What reports are required?".toList) = 1 := by
    show sumSq (normalizeL2 [3, 4]) = 1
    unfold normalizeL2
    rw [h25, hsqrt]
    norm_num [sumSq]
  refine ⟨⟨[3, 4], by rw [hidx]; exact List.mem_singleton.mpr rfl, by rw [h25]; norm_num⟩,
    hquery, ?_⟩
  intro h
  have h2 := h.mpr hquery [3, 4] (by rw [hidx]; exact List.mem_singleton.mpr rfl)
  rw [h25] at h2
  norm_num at h2

/-- **C10.** `_match_filters` never propagates an exception: whenever the
filter-evaluation body raises, the handler converts the fault into `False`,
so the malformed entry is excluded rather than crashing the search. -/
theorem matchFilters_absorbs_faults (md : ChunkMeta) (f : List (String × PyVal))
    (e : String) (h : matchFiltersBody md f = .error e) :
    matchFilters md f = false := by
  unfold matchFilters
  rw [h]

/-- Witness for C10: a chunk whose `confidence` metadata is the string
`"high"` makes the numeric comparison against `confidence_min` raise
`TypeError`; `_match_filters` returns `False` for it. -/
theorem matchFilters_absorbs_faults_witness :
    matchFiltersBody badConfidenceMeta confidenceFilter =
        .error "TypeError: unorderable types" ∧
      matchFilters badConfidenceMeta confidenceFilter = false :=
  ⟨rfl,
   matchFilters_absorbs_faults badConfidenceMeta confidenceFilter
     "TypeError: unorderable types" rfl⟩

/-! ### Helper lemmas about the deletion loop -/

lemma delLoop_fst_sublist :
    ∀ (ixs : List Nat) (store : List (Nat × ChunkMeta)) (cnt : Nat),
      List.Sublist (delLoop ixs (store, cnt)).1 store := by
  intro ixs
  induction ixs with
  | nil => intro store cnt; exact List.Sublist.refl store
  | cons i rest ih =>
      intro store cnt
      simp only [delLoop]
      split
      · exact ((ih _ _).trans (List.filter_sublist store))
      · exact ih store cnt

lemma filter_key_length {store : List (Nat × ChunkMeta)} {i : Nat}
    (hnd : (store.map Prod.fst).Nodup) (hmem : ∃ e ∈ store, e.1 = i) :
    (store.filter fun e => e.1 ≠ i).length + 1 = store.length := by
  induction store with
  | nil => rcases hmem with ⟨e, he, _⟩; cases he
  | cons a l ih =>
      rw [List.map_cons, List.nodup_cons] at hnd
      rcases hnd with ⟨hna, hndl⟩
      by_cases ha : a.1 = i
      · have hl : l.filter (fun e => decide (e.1 ≠ i)) = l := by
          apply List.filter_eq_self.mpr
          intro e he
          have hne : e.1 ≠ i := by
            intro hei
            apply hna
            rw [ha, ← hei]
            exact List.mem_map_of_mem Prod.fst he
          simpa using hne
        have hpa : (decide (a.1 ≠ i)) = false := by simp [ha]
        have hfc : (a :: l).filter (fun e => decide (e.1 ≠ i)) = l := by
          rw [List.filter_cons, hpa]
          simpa using hl
        rw [hfc, List.length_cons]
      · have hmem' : ∃ e ∈ l, e.1 = i := by
          rcases hmem with ⟨e, he, hei⟩
          rcases List.mem_cons.mp he with h | h
          · exact absurd (h ▸ hei) ha
          · exact ⟨e, h, hei⟩
        have hrec := ih hndl hmem'
        have hpa : (decide (a.1 ≠ i)) = true := by simpa using ha
        simp only [List.filter_cons, hpa, if_true, List.length_cons]
        omega

lemma delLoop_spec :
    ∀ (ixs : List Nat) (store : List (Nat × ChunkMeta)) (cnt : Nat),
      (store.map Prod.fst).Nodup →
      (delLoop ixs (store, cnt)).1 = store.filter (fun e => e.1 ∉ ixs) ∧
        (delLoop ixs (store, cnt)).2 =
          cnt + (store.length - (store.filter fun e => e.1 ∉ ixs).length) := by
  intro ixs
  induction ixs with
  | nil =>
      intro store cnt _
      have hid : store.filter (fun e => e.1 ∉ ([] : List Nat)) = store :=
        List.filter_eq_self.mpr (by simp)
      simp only [delLoop, hid]
      exact ⟨trivial, by omega⟩
  | cons i rest ih =>
      intro store cnt hnd
      simp only [delLoop]
      split
      case isTrue hany =>
        have hmem : ∃ e ∈ store, e.1 = i := by
          simpa using hany
        have hnd₁ : ((store.filter fun e => e.1 ≠ i).map Prod.fst).Nodup :=
          hnd.sublist ((List.filter_sublist store).map Prod.fst)
        obtain ⟨h1, h2⟩ := ih (store.filter fun e => e.1 ≠ i) (cnt + 1) hnd₁
        have hff : (store.filter fun e => e.1 ≠ i).filter (fun e => e.1 ∉ rest) =
            store.filter (fun e => e.1 ∉ i :: rest) := by
          rw [List.filter_filter]
          apply List.filter_congr
          intro e _
          by_cases h1 : e.1 = i <;> by_cases h2 : e.1 ∈ rest <;>
            simp [h1, h2, List.mem_cons]
        have hlen : (store.filter fun e => e.1 ≠ i).length + 1 = store.length :=
          filter_key_length hnd hmem
        have hle : ((store.filter fun e => e.1 ≠ i).filter
            fun e => e.1 ∉ rest).length ≤ (store.filter fun e => e.1 ≠ i).length :=
          (List.filter_sublist _).length_le
        rw [hff] at h1 h2 hle
        refine ⟨h1, ?_⟩
        rw [h2]
        omega
      case isFalse hany =>
        have hno : ∀ e ∈ store, e.1 ≠ i := by
          intro e he hei
          exact hany (List.any_eq_true.mpr ⟨e, he, by simp [hei]⟩)
        obtain ⟨h1, h2⟩ := ih store cnt hnd
        have hff : store.filter (fun e => e.1 ∉ rest) =
            store.filter (fun e => e.1 ∉ i :: rest) := by
          apply List.filter_congr
          intro e he
          simp [List.mem_cons, hno e he]
        rw [hff] at h1 h2
        exact ⟨h1, h2⟩

lemma length_filter_compl (l : List (Nat × ChunkMeta)) (p : Nat × ChunkMeta → Bool) :
    (l.filter p).length + (l.filter fun a => !p a).length = l.length := by
  induction l with
  | nil => rfl
  | cons a l ih =>
      by_cases h : p a <;> simp [List.filter_cons, h, ← ih] <;> omega

/-- **C7.** `delete_documents` removes exactly the Chunk Store entries whose
`document_id` is in the given list and returns their count; the Vector Index
is untouched, so `total_vectors` is unchanged while the deleted document ids
are no longer among the live document ids (the set whose size
`get_index_stats` reports as `active_documents`). -/
theorem delete_documents_semantics (st : FAISSState) (ids : List String)
    (hwf : StoreWf st) :
    (deleteDocuments ids st).1.store =
        st.store.filter (fun e => e.2.document_id ∉ ids) ∧
      (deleteDocuments ids st).2 =
        (st.store.filter fun e => e.2.document_id ∈ ids).length ∧
      (deleteDocuments ids st).1.index = st.index ∧
      (getIndexStats (deleteDocuments ids st).1).total_vectors =
        (getIndexStats st).total_vectors ∧
      ∀ id ∈ ids,
        id ∉ (deleteDocuments ids st).1.store.map fun e => e.2.document_id := by
  obtain ⟨hnd, hbound⟩ := hwf
  have main :
      (deleteDocuments ids st).1.store =
          st.store.filter (fun e => e.2.document_id ∉ ids) ∧
        (deleteDocuments ids st).2 =
          (st.store.filter fun e => e.2.document_id ∈ ids).length ∧
        (deleteDocuments ids st).1.index = st.index := by
    simp only [deleteDocuments]
    split
    case isTrue hidx =>
      have hempty : st.store = [] := by
        cases h : st.store with
        | nil => rfl
        | cons a l =>
            have := hbound a (by rw [h]; exact List.mem_cons_self a l)
            rw [hidx] at this
            exact absurd this (by simp)
      simp [hempty]
    case isFalse hidx =>
      split
      case isTrue hnone =>
        have hfilter : st.store.filter (fun e => e.2.document_id ∈ ids) = [] := by
          have := congrArg List.length hnone
          rw [List.length_map] at this
          exact List.length_eq_zero.mp (by simpa using this)
        have hall : ∀ e ∈ st.store, e.2.document_id ∉ ids := by
          intro e he hmem
          have hmem2 : e ∈ st.store.filter (fun x => decide (x.2.document_id ∈ ids)) :=
            List.mem_filter.mpr ⟨he, by simpa using hmem⟩
          rw [hfilter] at hmem2
          exact List.not_mem_nil e hmem2
        refine ⟨(List.filter_eq_self.mpr (by simpa using hall)).symm, ?_, rfl⟩
        rw [hfilter]
        rfl
      case isFalse =>
        set ixs := (st.store.filter fun e => e.2.document_id ∈ ids).map
          (fun x => x.1) with hixs
        obtain ⟨h1, h2⟩ := delLoop_spec ixs st.store 0 hnd
        have hbridge : ∀ e ∈ st.store,
            decide (e.1 ∉ ixs) = decide (e.2.document_id ∉ ids) := by
          intro e he
          have hiff : e.1 ∈ ixs ↔ e.2.document_id ∈ ids := by
            constructor
            · intro hmem
              rw [hixs] at hmem
              obtain ⟨e', he', hfst⟩ := List.mem_map.mp hmem
              obtain ⟨he'mem, hp⟩ := List.mem_filter.mp he'
              have hee : e' = e :=
                List.inj_on_of_nodup_map hnd he'mem he hfst
              rw [← hee]
              simpa using hp
            · intro hmem
              have hmem2 : e ∈ st.store.filter (fun x => decide (x.2.document_id ∈ ids)) :=
                List.mem_filter.mpr ⟨he, by simpa using hmem⟩
              rw [hixs]
              exact List.mem_map_of_mem (fun x => x.1) hmem2
          by_cases hin : e.2.document_id ∈ ids <;> simp [hiff, hin]
        have hstore : st.store.filter (fun e => e.1 ∉ ixs) =
            st.store.filter (fun e => e.2.document_id ∉ ids) :=
          List.filter_congr hbridge
        refine ⟨by rw [h1, hstore], ?_, rfl⟩
        have hcompl := length_filter_compl st.store (fun e => e.2.document_id ∈ ids)
        have hnotc : st.store.filter (fun a => !(a.2.document_id ∈ ids : Bool)) =
            st.store.filter (fun e => e.2.document_id ∉ ids) := by
          apply List.filter_congr
          intro e _
          by_cases hin : e.2.document_id ∈ ids <;> simp [hin]
        rw [hnotc] at hcompl
        rw [h2, hstore]
        have hle : (st.store.filter fun e => e.2.document_id ∉ ids).length ≤
            st.store.length := (List.filter_sublist st.store).length_le
        omega
  obtain ⟨h1, h2, h3⟩ := main
  refine ⟨h1, h2, h3, by simp [getIndexStats, h3], ?_⟩
  intro id hid hmem
  obtain ⟨e, he, hdoc⟩ := List.mem_map.mp hmem
  rw [h1] at he
  obtain ⟨_, hp⟩ := List.mem_filter.mp he
  rw [hdoc] at hp
  simpa [hid] using hp

/-- Witness for C7 at a concrete reachable two-document state. -/
theorem delete_documents_semantics_witness :
    (deleteDocuments ["D1"] twoDocState).1.store =
        twoDocState.store.filter (fun e => e.2.document_id ∉ ["D1"]) ∧
      (deleteDocuments ["D1"] twoDocState).2 =
        (twoDocState.store.filter fun e => e.2.document_id ∈ ["D1"]).length ∧
      (deleteDocuments ["D1"] twoDocState).1.index = twoDocState.index ∧
      (getIndexStats (deleteDocuments ["D1"] twoDocState).1).total_vectors =
        (getIndexStats twoDocState).total_vectors ∧
      ∀ id ∈ ["D1"],
        id ∉ (deleteDocuments ["D1"] twoDocState).1.store.map
          fun e => e.2.document_id :=
  delete_documents_semantics twoDocState ["D1"] ⟨by decide, by decide⟩

/-! ### Structural lemmas for C3 -/

lemma addDocuments_struct (embed : List Char → List ℚ) (docs : List Document)
    (st : FAISSState) :
    (addDocuments embed docs st).1.index =
        st.index ++ (prepareChunks docs).map (fun m => embed m.content) ∧
      (addDocuments embed docs st).1.store =
        st.store ++ (prepareChunks docs).enum.map
          (fun p => (st.index.length + p.1, p.2)) := by
  simp only [addDocuments]
  split
  case isTrue hd =>
    subst hd
    exact ⟨by simp [prepareChunks], by simp [prepareChunks]⟩
  case isFalse hd =>
    split
    case isTrue hm =>
      rw [hm]
      exact ⟨by simp, by simp⟩
    case isFalse hm =>
      refine ⟨?_, rfl⟩
      simp [List.map_map, Function.comp]

lemma deleteDocuments_struct (ids : List String) (st : FAISSState) :
    List.Sublist (deleteDocuments ids st).1.store st.store ∧
      (deleteDocuments ids st).1.index = st.index := by
  simp only [deleteDocuments]
  split
  · exact ⟨List.Sublist.refl _, rfl⟩
  · split
    · exact ⟨List.Sublist.refl _, rfl⟩
    · exact ⟨delLoop_fst_sublist _ _ _, rfl⟩

lemma aligned_addDocuments {embed : List Char → List ℚ} {st : FAISSState}
    (h : Aligned embed st) (docs : List Document) :
    Aligned embed (addDocuments embed docs st).1 := by
  obtain ⟨hidx, hstore⟩ := addDocuments_struct embed docs st
  obtain ⟨hnd, hal⟩ := h
  set metas := prepareChunks docs with hmetas
  set L := st.index.length with hL
  constructor
  · rw [hstore, List.map_append]
    have hnew : (metas.enum.map (fun p => (L + p.1, p.2))).map Prod.fst =
        (List.range metas.length).map (fun i => L + i) := by
      rw [List.map_map]
      have : (Prod.fst ∘ fun p : Nat × ChunkMeta => (L + p.1, p.2)) =
          (fun i => L + i) ∘ Prod.fst := rfl
      rw [this, ← List.map_map, List.enum_map_fst]
    rw [hnew]
    refine List.Nodup.append hnd ?_ ?_
    · exact (List.nodup_range _).map (fun a b hab => by omega)
    · intro k hk1 hk2
      obtain ⟨e, he, hke⟩ := List.mem_map.mp hk1
      obtain ⟨i, _, hki⟩ := List.mem_map.mp hk2
      have := (hal e he).1
      omega
  · intro e he
    rw [hstore] at he
    rcases List.mem_append.mp he with hold | hnew
    · obtain ⟨hb, hv⟩ := hal e hold
      constructor
      · rw [hidx, List.length_append]
        omega
      · rw [hidx, List.getElem?_append_left hb, hv]
    · obtain ⟨p, hp, hpe⟩ := List.mem_map.mp hnew
      have hget : metas[p.1]? = some p.2 := by
        have := List.mem_enum_iff_getElem?.mp hp
        exact this
      have hplt : p.1 < metas.length := by
        rcases List.getElem?_eq_some.mp hget with ⟨hh, _⟩
        exact hh
      constructor
      · rw [← hpe, hidx, List.length_append, List.length_map]
        simpa using hplt
      · rw [← hpe, hidx]
        have h1 : L ≤ L + p.1 := Nat.le_add_right L p.1
        rw [List.getElem?_append_right (by simpa using h1)]
        have h2 : L + p.1 - st.index.length = p.1 := by omega
        rw [h2, List.getElem?_map, hget]
        rfl

lemma aligned_deleteDocuments {embed : List Char → List ℚ} {st : FAISSState}
    (h : Aligned embed st) (ids : List String) :
    Aligned embed (deleteDocuments ids st).1 := by
  obtain ⟨hsub, hidx⟩ := deleteDocuments_struct ids st
  obtain ⟨hnd, hal⟩ := h
  constructor
  · exact hnd.sublist (hsub.map Prod.fst)
  · intro e he
    have := hal e (hsub.subset he)
    rw [hidx]
    exact this

lemma aligned_applyOps {embed : List Char → List ℚ} :
    ∀ (ops : List Op) (st : FAISSState),
      Aligned embed st → Aligned embed (applyOps embed st ops) := by
  intro ops
  induction ops with
  | nil => intro st h; exact h
  | cons op rest ih =>
      intro st h
      cases op with
      | add docs => exact ih _ (aligned_addDocuments h docs)
      | del ids => exact ih _ (aligned_deleteDocuments h ids)

/-- **C3.** Positional alignment: starting from the empty indexer, after any
sequence of `add_documents`/`delete_documents` calls every Chunk Store key
`p` addresses an existing Vector Index row (`p < index.size()`) holding
exactly the embedding of the chunk stored at key `p`; moreover
`add_documents` registers its `n` prepared chunks at the consecutive keys
`old_size, …, old_size + n - 1` in embedding order, and `delete_documents`
only removes store entries (the surviving entries, keys included, are a
sublist of the previous store) and never touches the Vector Index. -/
theorem positional_alignment :
    (∀ (embed : List Char → List ℚ) (ops : List Op),
        Aligned embed (applyOps embed emptyState ops)) ∧
      (∀ (embed : List Char → List ℚ) (docs : List Document) (st : FAISSState),
          (addDocuments embed docs st).1.index =
              st.index ++ (prepareChunks docs).map (fun m => embed m.content) ∧
            (addDocuments embed docs st).1.store =
              st.store ++ (prepareChunks docs).enum.map
                (fun p => (st.index.length + p.1, p.2))) ∧
      (∀ (ids : List String) (st : FAISSState),
          List.Sublist (deleteDocuments ids st).1.store st.store ∧
            (deleteDocuments ids st).1.index = st.index) := by
  refine ⟨?_, addDocuments_struct, deleteDocuments_struct⟩
  intro embed ops
  apply aligned_applyOps
  constructor
  · simp [emptyState]
  · intro e he
    simp [emptyState] at he

/-! ### Helper lemma for C6: one deduplication pass -/

lemma addResults_spec (tf : SearchResult → SearchResult)
    (htf : ∀ r, (tf r).chunk_id = r.chunk_id) :
    ∀ (rs : List SearchResult) (seen : List String),
      (∀ x, x ∈ (addResults tf rs seen).2 ↔
          x ∈ seen ∨ x ∈ (addResults tf rs seen).1.map (·.chunk_id)) ∧
        ((addResults tf rs seen).1.map (·.chunk_id)).Nodup ∧
        (∀ i ∈ (addResults tf rs seen).1.map (·.chunk_id), i ∉ seen) ∧
        (∀ e ∈ (addResults tf rs seen).1, ∃ r ∈ rs, e = tf r) ∧
        (∀ r ∈ rs, r.chunk_id ∈ (addResults tf rs seen).2) := by
  intro rs
  induction rs with
  | nil =>
      intro seen
      simp [addResults]
  | cons r rest ih =>
      intro seen
      simp only [addResults]
      split
      case isTrue hmem =>
        obtain ⟨ih1, ih2, ih3, ih4, ih5⟩ := ih seen
        refine ⟨ih1, ih2, ih3, ?_, ?_⟩
        · intro e he
          obtain ⟨r', hr', he'⟩ := ih4 e he
          exact ⟨r', List.mem_cons_of_mem r hr', he'⟩
        · intro r' hr'
          rcases List.mem_cons.mp hr' with h | h
          · subst h
            exact (ih1 r'.chunk_id).mpr (Or.inl hmem)
          · exact ih5 r' h
      case isFalse hmem =>
        obtain ⟨ih1, ih2, ih3, ih4, ih5⟩ := ih (r.chunk_id :: seen)
        refine ⟨?_, ?_, ?_, ?_, ?_⟩
        · intro x
          rw [ih1 x]
          simp only [List.map_cons, htf, List.mem_cons]
          tauto
        · simp only [List.map_cons, htf, List.nodup_cons]
          refine ⟨?_, ih2⟩
          intro hin
          exact (ih3 _ hin) (List.mem_cons_self _ _)
        · simp only [List.map_cons, htf, List.mem_cons]
          rintro i (rfl | hin)
          · exact hmem
          · intro hseen
            exact (ih3 i hin) (List.mem_cons_of_mem _ hseen)
        · intro e he
          rcases List.mem_cons.mp he with h | h
          · exact ⟨r, List.mem_cons_self r rest, h⟩
          · obtain ⟨r', hr', he'⟩ := ih4 e h
            exact ⟨r', List.mem_cons_of_mem r hr', he'⟩
        · intro r' hr'
          rcases List.mem_cons.mp hr' with h | h
          · subst h
            exact (ih1 r'.chunk_id).mpr (Or.inl (List.mem_cons_self _ _))
          · exact ih5 r' h

/-- **C6.** Hybrid fusion: the merged list has pairwise-distinct
`chunk_id`s; every merged entry whose `chunk_id` occurs among the semantic
hits is one of the semantic hits (its score untouched); every keyword-only
entry carries final score `0.8 * raw + 0.2` for some keyword hit with its
`chunk_id`; and the merged list is sorted by descending score and holds at
most `max_results` entries. -/
theorem hybrid_fusion_spec (S K : List SearchResult) (m : Nat) :
    ((mergeResults S K m).map (·.chunk_id)).Nodup ∧
      (∀ e ∈ mergeResults S K m, e.chunk_id ∈ S.map (·.chunk_id) → e ∈ S) ∧
      (∀ e ∈ mergeResults S K m, e.chunk_id ∉ S.map (·.chunk_id) →
          ∃ r ∈ K, r.chunk_id = e.chunk_id ∧ e.score = 0.8 * r.score + 0.2) ∧
      (mergeResults S K m).Pairwise (fun a b => b.score ≤ a.score) ∧
      (mergeResults S K m).length ≤ m := by
  obtain ⟨hS1, hS2, hS3, hS4, hS5⟩ := addResults_spec id (fun _ => rfl) S []
  obtain ⟨hK1, hK2, hK3, hK4, hK5⟩ :=
    addResults_spec boostKeyword (fun _ => rfl) K (addResults id S []).2
  set A := (addResults id S []).1 with hA
  set B := (addResults boostKeyword K (addResults id S []).2).1 with hB
  have hAinS : ∀ e ∈ A, e ∈ S := by
    intro e he
    obtain ⟨r, hr, he'⟩ := hS4 e he
    exact he' ▸ hr
  have hseen1 : ∀ x, x ∈ (addResults id S []).2 ↔ x ∈ A.map (·.chunk_id) := by
    intro x
    rw [hS1 x]
    simp
  have hSsub : ∀ r ∈ S, r.chunk_id ∈ A.map (·.chunk_id) := by
    intro r hr
    exact (hseen1 _).mp (hS5 r hr)
  have hBdisj : ∀ i ∈ B.map (·.chunk_id), i ∉ A.map (·.chunk_id) := by
    intro i hiB hiA
    exact hK3 i hiB ((hseen1 i).mpr hiA)
  have hndL : ((A ++ B).map (·.chunk_id)).Nodup := by
    rw [List.map_append]
    refine List.Nodup.append hS2 hK2 ?_
    intro i hiA hiB
    exact hBdisj i hiB hiA
  have hperm : List.Perm
      (List.mergeSort (A ++ B) fun a b => b.score ≤ a.score) (A ++ B) :=
    List.mergeSort_perm (A ++ B) _
  have hmemM : ∀ e ∈ mergeResults S K m, e ∈ A ∨ e ∈ B := by
    intro e he
    have h0 : e ∈ List.mergeSort (A ++ B) fun a b => b.score ≤ a.score :=
      (List.take_sublist _ _).subset he
    exact List.mem_append.mp (hperm.subset h0)
  refine ⟨?_, ?_, ?_, ?_, ?_⟩
  · have hndM0 : ((List.mergeSort (A ++ B)
        fun a b => b.score ≤ a.score).map (·.chunk_id)).Nodup :=
      ((hperm.map (·.chunk_id)).nodup_iff).mpr hndL
    show (((List.mergeSort (A ++ B)
        fun a b => b.score ≤ a.score).take m).map (·.chunk_id)).Nodup
    rw [List.map_take]
    exact hndM0.sublist (List.take_sublist _ _)
  · intro e he _
    rcases hmemM e he with h | h
    · exact hAinS e h
    · exfalso
      have hid : e.chunk_id ∈ B.map (·.chunk_id) := List.mem_map_of_mem _ h
      obtain ⟨r, hrS, hre⟩ := List.mem_map.mp ‹e.chunk_id ∈ S.map (·.chunk_id)›
      exact hBdisj _ hid (hre ▸ hSsub r hrS)
  · intro e he hnotin
    rcases hmemM e he with h | h
    · exact absurd (List.mem_map_of_mem (·.chunk_id) (hAinS e h)) hnotin
    · obtain ⟨r, hr, he'⟩ := hK4 e h
      refine ⟨r, hr, ?_, ?_⟩
      · rw [he']
        rfl
      · rw [he']
        show r.score * 0.8 + 0.2 = 0.8 * r.score + 0.2
        ring
  · have htrans : ∀ a b c : SearchResult,
        (fun a b => (b.score ≤ a.score : Bool)) a b →
        (fun a b => (b.score ≤ a.score : Bool)) b c →
        (fun a b => (b.score ≤ a.score : Bool)) a c := by
      intro a b c hab hbc
      simp only [decide_eq_true_eq] at *
      exact le_trans hbc hab
    have htotal : ∀ a b : SearchResult,
        ((fun a b => (b.score ≤ a.score : Bool)) a b ||
          (fun a b => (b.score ≤ a.score : Bool)) b a) := by
      intro a b
      simp only [Bool.or_eq_true, decide_eq_true_eq]
      exact le_total b.score a.score
    have hsorted := List.sorted_mergeSort htrans htotal (A ++ B)
    have hsorted' : (List.mergeSort (A ++ B)
        fun a b => b.score ≤ a.score).Pairwise (fun a b => b.score ≤ a.score) :=
      hsorted.imp (fun h => by simpa using h)
    exact hsorted'.sublist (List.take_sublist _ _)
  · exact List.length_take_le _ _

/-- **C9.** `query` never propagates a retrieval failure: whenever the
retrieval dispatch raises (for example because the indexer's vector search
re-raised an embedding fault), `_search_documents` catches it and returns
`[]`, so `query` returns normally with a `not_found` answer of confidence
0.0 and no sources. -/
theorem query_absorbs_retrieval_fault
    (sem kw : Nat → Except String (List SearchResult))
    (llm : List Char → Except String (List Char))
    (relatedQ : String → Option (List String)) (gc : Bool) (rq : QARequest)
    (e : String)
    (hfail : searchDocumentsBody sem kw rq.search_mode rq.max_results
        rq.confidence_threshold = .error e) :
    ∃ res, queryE sem kw llm relatedQ gc rq = .ok res ∧
      res.answer.answer_type = "not_found" ∧ res.answer.confidence = 0 ∧
      res.answer.sources = [] ∧ res.search_results_count = 0 := by
  have hsd : searchDocuments sem kw rq.search_mode rq.max_results
      rq.confidence_threshold = [] := by
    unfold searchDocuments
    rw [hfail]
  refine ⟨_, rfl, ?_, ?_, ?_, ?_⟩
  all_goals simp [queryE, hsd, generateAnswer]

/-- Witness for C9: an embedding fault in semantic mode. -/
theorem query_absorbs_retrieval_fault_witness :
    searchDocumentsBody semFailing kwEmpty reqSemantic.search_mode
        reqSemantic.max_results reqSemantic.confidence_threshold =
        .error "embedding fault" ∧
      ∃ res, queryE semFailing kwEmpty llmFailing (fun _ => Option.none) true
          reqSemantic = .ok res ∧
        res.answer.answer_type = "not_found" ∧ res.answer.confidence = 0 ∧
        res.answer.sources = [] ∧ res.search_results_count = 0 :=
  ⟨rfl, query_absorbs_retrieval_fault semFailing kwEmpty llmFailing
    (fun _ => Option.none) true reqSemantic "embedding fault" rfl⟩

/-- **C2 (amended).** When the LLM call raises during answer synthesis (a
non-empty retrieved list, the generator configured, context requested), the
failure is caught inside `_generate_ai_answer` (faiss_query.py:321-323):
`query` returns normally and the Answer has type `"synthesized"` with
confidence 0.2 and text `"Unable to generate AI answer"` — not the
`error`-typed, confidence-0.0 answer, which is produced only by
`_generate_answer`'s own handler. -/
theorem synthesis_failure_degrades
    (sem kw : Nat → Except String (List SearchResult))
    (llm : List Char → Except String (List Char))
    (relatedQ : String → Option (List String)) (rq : QARequest) (err : String)
    (hllm : ∀ p, llm p = .error err)
    (hic : rq.include_context = true)
    (hne : searchDocuments sem kw rq.search_mode rq.max_results
        rq.confidence_threshold ≠ []) :
    ∃ res, queryE sem kw llm relatedQ true rq = .ok res ∧
      res.answer.answer_type = "synthesized" ∧
      res.answer.confidence = 0.2 ∧
      res.answer.answer = "Unable to generate AI answer".toList := by
  obtain ⟨top, rest, hcons⟩ := List.exists_cons_of_ne_nil hne
  have hai : generateAiAnswer llm rq.query ((top :: rest).map (·.content)) =
      ("Unable to generate AI answer".toList, 0.2) := by
    unfold generateAiAnswer
    simp only [hllm]
  have hans : generateAnswer llm relatedQ true rq (top :: rest) =
      { answer := "Unable to generate AI answer".toList
        confidence := 0.2
        answer_type := "synthesized"
        sources := (top :: rest).map mkSource
        related_queries := relatedQ rq.query
        explanation := some ("Answer generated from " ++
          toString ((top :: rest).map mkSource).length ++
          " relevant document(s)") } := by
    unfold generateAnswer
    simp only [hic, Bool.and_self, if_true]
    rw [hai]
  refine ⟨_, rfl, ?_, ?_, ?_⟩ <;>
    simp only [hcons, hans]

/-- Witness for the amended C2: one retrieved hit, failing LLM. -/
theorem synthesis_failure_degrades_witness :
    (∀ p, llmFailing p = .error "rate limit") ∧
      ∃ res, queryE semOneHit kwEmpty llmFailing (fun _ => Option.none) true
          reqSemantic = .ok res ∧
        res.answer.answer_type = "synthesized" ∧
        res.answer.confidence = 0.2 ∧
        res.answer.answer = "Unable to generate AI answer".toList :=
  ⟨fun _ => rfl,
   synthesis_failure_degrades semOneHit kwEmpty llmFailing (fun _ => Option.none)
     reqSemantic "rate limit" (fun _ => rfl) rfl (by decide)⟩

/-- **C2 (counterexample).** At a concrete query with one retrieved hit and
a raising LLM, the returned Answer has type `"synthesized"` and confidence
0.2 — not type `"error"` with confidence 0.0 as the claim states. -/
theorem synthesis_failure_not_error :
    c2Answer.answer_type = "synthesized" ∧ c2Answer.confidence = 0.2 ∧
      c2Answer.answer = "Unable to generate AI answer".toList ∧
      ¬(c2Answer.answer_type = "error" ∧ c2Answer.confidence = 0) := by
  refine ⟨rfl, rfl, rfl, ?_⟩
  rintro ⟨h1, _⟩
  rw [show c2Answer.answer_type = "synthesized" from rfl] at h1
  exact absurd h1 (by decide)

/-! ### Helper lemma for C8: one membership-filter step -/

lemma memberCheck_list (x : PyScalar) (l : List PyScalar) (c : Except String Bool) :
    memberCheck x (.list l) c = if x ∈ l then c else .ok false := by
  by_cases hx : x ∈ l
  · rw [if_pos hx]
    show (do
        let b ← Except.ok (decide (x ∈ l))
        if !b then pure false else c : Except String Bool) = c
    rw [decide_eq_true hx]
    rfl
  · rw [if_neg hx]
    show (do
        let b ← Except.ok (decide (x ∈ l))
        if !b then pure false else c : Except String Bool) = .ok false
    rw [decide_eq_false hx]
    rfl

lemma matchFiltersBody_cons_membership (md : ChunkMeta) (k : String)
    (l : List PyScalar) (rest : List (String × PyVal))
    (hk : k ∈ ["project_ids", "contractors", "statuses", "document_types",
      "categories"]) :
    matchFiltersBody md ((k, PyVal.list l) :: rest) =
      if chunkFieldFor md k ∈ l then matchFiltersBody md rest else .ok false := by
  have hk' : k = "project_ids" ∨ k = "contractors" ∨ k = "statuses" ∨
      k = "document_types" ∨ k = "categories" := by simpa using hk
  rcases hk' with rfl | rfl | rfl | rfl | rfl <;>
    exact memberCheck_list _ l (matchFiltersBody md rest)

/-- **C8.** Membership semantics of the Filter Evaluator: for every filter
set whose keys are among the five membership keys and whose values are lists
of strings, `_match_filters` returns `True` iff for each supplied key the
chunk's corresponding field value is a member of the supplied list, the keys
combining conjunctively; a chunk lacking one of the constrained fields fails
that key. -/
theorem filter_membership_semantics (md : ChunkMeta) (f : List (String × PyVal))
    (hkeys : ∀ p ∈ f, p.1 ∈ ["project_ids", "contractors", "statuses",
        "document_types", "categories"])
    (hvals : ∀ p ∈ f, ∃ l, p.2 = PyVal.list l ∧ ∀ x ∈ l, ∃ s, x = PyScalar.str s) :
    (matchFilters md f = true ↔
        ∀ p ∈ f, ∀ l, p.2 = PyVal.list l → chunkFieldFor md p.1 ∈ l) ∧
      ∀ p ∈ f, ∀ l, p.2 = PyVal.list l → chunkFieldFor md p.1 = PyScalar.none →
        matchFilters md f = false := by
  have main : matchFilters md f = true ↔
      ∀ p ∈ f, ∀ l, p.2 = PyVal.list l → chunkFieldFor md p.1 ∈ l := by
    induction f with
    | nil => simp [matchFilters, matchFiltersBody]
    | cons p rest ih =>
        obtain ⟨l, hl, _⟩ := hvals p (List.mem_cons_self p rest)
        have hk := hkeys p (List.mem_cons_self p rest)
        have hrest := ih (fun q hq => hkeys q (List.mem_cons_of_mem p hq))
          (fun q hq => hvals q (List.mem_cons_of_mem p hq))
        obtain ⟨k, v⟩ := p
        simp only at hl
        subst hl
        have hb := matchFiltersBody_cons_membership md k l rest hk
        by_cases hfld : chunkFieldFor md k ∈ l
        · have heq : matchFilters md ((k, PyVal.list l) :: rest) =
              matchFilters md rest := by
            unfold matchFilters
            rw [hb, if_pos hfld]
          rw [heq, hrest]
          constructor
          · intro h q hq l' hl'
            rcases List.mem_cons.mp hq with rfl | hq'
            · injection hl' with h'
              exact h' ▸ hfld
            · exact h q hq' l' hl'
          · intro h q hq l' hl'
            exact h q (List.mem_cons_of_mem _ hq) l' hl'
        · have heq : matchFilters md ((k, PyVal.list l) :: rest) = false := by
            unfold matchFilters
            rw [hb, if_neg hfld]
          rw [heq]
          constructor
          · intro h
            cases h
          · intro h
            exact absurd (h (k, PyVal.list l) (List.mem_cons_self _ _) l rfl) hfld
  refine ⟨main, ?_⟩
  intro p hp l hl hnone
  have hstr := (hvals p hp).choose_spec
  obtain ⟨l', hl', hl'str⟩ := hvals p hp
  rw [hl] at hl'
  injection hl' with h'
  subst h'
  have hnotmem : chunkFieldFor md p.1 ∉ l := by
    intro hmem
    obtain ⟨s, hs⟩ := hl'str _ hmem
    rw [hnone] at hs
    cases hs
  cases hmf : matchFilters md f with
  | false => rfl
  | true => exact absurd ((main.mp hmf) p hp l hl) hnotmem

/-- Witness for C8: a chunk tagged `project_id = "P1"`, `document_type =
"contract"` passes the membership filter set
`{project_ids: [P1, P2], document_types: [contract]}`. -/
theorem filter_membership_semantics_witness :
    matchFilters taggedMd memberFilters = true :=
  (filter_membership_semantics taggedMd memberFilters (by decide)
    (fun p hp => by
      fin_cases hp
      · exact ⟨_, rfl, fun x hx => by
          rcases List.mem_cons.mp hx with rfl | hx'
          · exact ⟨"P1", rfl⟩
          · rcases List.mem_cons.mp hx' with rfl | hx''
            · exact ⟨"P2", rfl⟩
            · cases hx''⟩
      · exact ⟨_, rfl, fun x hx => by
          rcases List.mem_cons.mp hx with rfl | hx'
          · exact ⟨"contract", rfl⟩
          · cases hx'⟩)).1.mpr
    (fun p hp l hl => by
      fin_cases hp
      · injection hl with h
        subst h
        decide
      · injection hl with h
        subst h
        decide)

/-! ### Helper lemmas for C5: `rfind` and the last sentence terminator -/

lemma rfind_ge_neg_one (l : List Char) (c : Char) : -1 ≤ rfind l c := by
  induction l with
  | nil => simp [rfind]
  | cons a l ih =>
      show -1 ≤ if rfind l c ≥ 0 then rfind l c + 1 else if a = c then 0 else -1
      split_ifs <;> omega

lemma rfind_append (l₁ l₂ : List Char) (c : Char) :
    rfind (l₁ ++ l₂) c =
      if rfind l₂ c ≥ 0 then l₁.length + rfind l₂ c else rfind l₁ c := by
  induction l₁ with
  | nil =>
      show rfind l₂ c = if rfind l₂ c ≥ 0 then (([] : List Char).length : Int) +
        rfind l₂ c else rfind [] c
      have := rfind_ge_neg_one l₂ c
      show rfind l₂ c = if rfind l₂ c ≥ 0 then (0 : Int) + rfind l₂ c else -1
      split_ifs <;> omega
  | cons a l₁ ih =>
      show (if rfind (l₁ ++ l₂) c ≥ 0 then rfind (l₁ ++ l₂) c + 1
          else if a = c then 0 else -1) = _
      rw [ih]
      have hlc : ((a :: l₁).length : Int) = (l₁.length : Int) + 1 := by
        rw [List.length_cons]
        push_cast
        ring
      by_cases h2 : rfind l₂ c ≥ 0
      · rw [if_pos h2]
        have hl1 : (0 : Int) ≤ l₁.length := by positivity
        rw [if_pos (by omega), if_pos h2, hlc]
        ring
      · rw [if_neg h2]
        show (if rfind l₁ c ≥ 0 then rfind l₁ c + 1 else if a = c then 0 else -1) =
          if rfind l₂ c ≥ 0 then ((a :: l₁).length : Int) + rfind l₂ c
          else rfind (a :: l₁) c
        rw [if_neg h2]
        rfl

lemma rfind_replicate_of_ne (n : Nat) (a c : Char) (h : a ≠ c) :
    rfind (List.replicate n a) c = -1 := by
  induction n with
  | zero => rfl
  | succ n ih =>
      show (if rfind (List.replicate n a) c ≥ 0 then rfind (List.replicate n a) c + 1
        else if a = c then 0 else -1) = -1
      rw [ih, if_neg (by omega), if_neg h]

/-- The last sentence terminator of `aᵐ . bᵏ` sits at index `m`. -/
lemma lastTerm_replicate_dot (m k : Nat) :
    lastTerm (List.replicate m 'a' ++ '.' :: List.replicate k 'b') = m := by
  have hdot0 : rfind ('.' :: List.replicate k 'b') '.' = 0 := by
    show (if rfind (List.replicate k 'b') '.' ≥ 0 then _ else if '.' = '.' then 0 else -1) = 0
    rw [rfind_replicate_of_ne k 'b' '.' (by decide), if_neg (by omega), if_pos rfl]
  have hdot : rfind (List.replicate m 'a' ++ '.' :: List.replicate k 'b') '.' = m := by
    rw [rfind_append, hdot0, if_pos (by omega)]
    simp
  have hother : ∀ c, c ≠ '.' → c ≠ 'a' → c ≠ 'b' →
      rfind (List.replicate m 'a' ++ '.' :: List.replicate k 'b') c = -1 := by
    intro c h1 h2 h3
    have hc0 : rfind ('.' :: List.replicate k 'b') c = -1 := by
      show (if rfind (List.replicate k 'b') c ≥ 0 then _
        else if '.' = c then 0 else -1) = -1
      rw [rfind_replicate_of_ne k 'b' c (Ne.symm h3), if_neg (by omega),
        if_neg (fun hh => h1 hh.symm)]
    rw [rfind_append, hc0, if_neg (by omega),
      rfind_replicate_of_ne m 'a' c (Ne.symm h2)]
  unfold lastTerm
  rw [hdot, hother '!' (by decide) (by decide) (by decide),
    hother '?' (by decide) (by decide) (by decide)]
  have : (0 : Int) ≤ m := by positivity
  omega

/-- Index `m` of `aᵐ . bᵏ` holds the terminator. -/
lemma termAt_replicate_dot (m k : Nat) :
    termAt (List.replicate m 'a' ++ '.' :: List.replicate k 'b') m = true := by
  have hget : (List.replicate m 'a' ++ '.' :: List.replicate k 'b')[m]? = some '.' := by
    rw [List.getElem?_append_right (by simp)]
    simp
  simp [termAt, hget, isTermB]

/-- Indices past `m` in `aᵐ . bᵏ` hold no terminator. -/
lemma termAt_replicate_dot_after (m k j : Nat) (h1 : m < j) (h2 : j < m + 1 + k) :
    termAt (List.replicate m 'a' ++ '.' :: List.replicate k 'b') j = false := by
  have hget : (List.replicate m 'a' ++ '.' :: List.replicate k 'b')[j]? = some 'b' := by
    rw [List.getElem?_append_right (by simp; omega)]
    have hj : j - (List.replicate m 'a').length = (j - m - 1) + 1 := by simp; omega
    rw [hj, List.getElem?_cons_succ, List.getElem?_replicate, if_pos (by omega)]
  simp [termAt, hget, isTermB]

lemma cutEnd_eq_of_interior (text : List Char) (cs start : Nat)
    (hin : start + cs < text.length) :
    cutEnd text cs start =
      if 2 * lastTerm (pySlice text start (start + cs)) > (cs : Int) then
        start + (lastTerm (pySlice text start (start + cs))).toNat + 1
      else start + cs := by
  unfold cutEnd
  rw [if_pos hin]

lemma cutEnd_eq_of_tail (text : List Char) (cs start : Nat)
    (h : ¬start + cs < text.length) : cutEnd text cs start = start + cs := by
  unfold cutEnd
  rw [if_neg h]

/-- Length of an `a^m . b^k` word. -/
lemma length_replicate_dot (m k : Nat) :
    (List.replicate m 'a' ++ '.' :: List.replicate k 'b').length = m + 1 + k := by
  rw [List.length_append, List.length_replicate, List.length_cons,
    List.length_replicate]
  omega

/-- Taking `m + 1 + k` characters of `a^m . b^(k+extra)` leaves `a^m . b^k`. -/
lemma take_replicate_dot (m k extra : Nat) :
    ((List.replicate m 'a' ++ '.' :: List.replicate (k + extra) 'b').drop 0).take
        (m + 1 + k) =
      List.replicate m 'a' ++ '.' :: List.replicate k 'b' := by
  rw [List.drop_zero, List.take_append_eq_append_take,
    List.take_of_length_le (by rw [List.length_replicate]; omega)]
  congr 1
  have h1 : m + 1 + k - (List.replicate m 'a').length = k + 1 := by
    rw [List.length_replicate]
    omega
  have h2 : k ⊓ (k + extra) = k := by omega
  rw [h1, List.take_succ_cons, List.take_replicate, h2]

/-- The first window of `boundaryDotText`. -/
lemma window_boundaryDotText :
    pySlice boundaryDotText 0 512 =
      List.replicate 256 'a' ++ '.' :: List.replicate 255 'b' := by
  show ((List.replicate 256 'a' ++ '.' :: List.replicate 343 'b').drop 0).take
    (512 - 0) = _
  rw [show (343 : Nat) = 255 + 88 from by norm_num,
    show (512 - 0 : Nat) = 256 + 1 + 255 from by norm_num]
  exact take_replicate_dot 256 255 88

/-- The first window of `lateDotText`. -/
lemma window_lateDotText :
    pySlice lateDotText 0 512 =
      List.replicate 300 'a' ++ '.' :: List.replicate 211 'b' := by
  show ((List.replicate 300 'a' ++ '.' :: List.replicate 300 'b').drop 0).take
    (512 - 0) = _
  nth_rewrite 2 [show (300 : Nat) = 211 + 89 from by norm_num]
  rw [show (512 - 0 : Nat) = 300 + 1 + 211 from by norm_num]
  exact take_replicate_dot 300 211 89

/-- Lengths of the concrete chunker inputs. -/
lemma length_boundaryDotText : boundaryDotText.length = 600 := by
  show (List.replicate 256 'a' ++ '.' :: List.replicate 343 'b').length = 600
  rw [length_replicate_dot]

lemma length_lateDotText : lateDotText.length = 601 := by
  show (List.replicate 300 'a' ++ '.' :: List.replicate 300 'b').length = 601
  rw [List.length_append, List.length_replicate, List.length_cons,
    List.length_replicate]

lemma rfind_lt_length (l : List Char) (c : Char) : rfind l c < (l.length : Int) := by
  induction l with
  | nil => simp [rfind]
  | cons a l ih =>
      show (if rfind l c ≥ 0 then rfind l c + 1 else if a = c then 0 else -1) <
        ((a :: l).length : Int)
      rw [List.length_cons]
      split_ifs <;> push_cast <;> omega

lemma rfind_nonneg_get (l : List Char) (c : Char) (h : 0 ≤ rfind l c) :
    l[(rfind l c).toNat]? = some c := by
  induction l with
  | nil => simp [rfind] at h
  | cons a l ih =>
      by_cases hr : rfind l c ≥ 0
      · have hv : rfind (a :: l) c = rfind l c + 1 := by
          show (if rfind l c ≥ 0 then rfind l c + 1 else if a = c then 0 else -1) = _
          rw [if_pos hr]
        rw [hv]
        have htn : (rfind l c + 1).toNat = (rfind l c).toNat + 1 := by omega
        rw [htn, List.getElem?_cons_succ]
        exact ih hr
      · by_cases hac : a = c
        · have hv : rfind (a :: l) c = 0 := by
            show (if rfind l c ≥ 0 then rfind l c + 1 else if a = c then 0 else -1) = _
            rw [if_neg hr, if_pos hac]
          rw [hv]
          simpa using hac
        · have hv : rfind (a :: l) c = -1 := by
            show (if rfind l c ≥ 0 then rfind l c + 1 else if a = c then 0 else -1) = _
            rw [if_neg hr, if_neg hac]
          rw [hv] at h
          omega

lemma rfind_ge_of_getElem (l : List Char) (c : Char) :
    ∀ (i : Nat), l[i]? = some c → (i : Int) ≤ rfind l c := by
  induction l with
  | nil => intro i h; simp at h
  | cons a l ih =>
      intro i h
      show (i : Int) ≤ if rfind l c ≥ 0 then rfind l c + 1 else if a = c then 0 else -1
      cases i with
      | zero =>
          have hac : a = c := by simpa using h
          split_ifs with h1 h2 <;> omega
      | succ i =>
          rw [List.getElem?_cons_succ] at h
          have := ih i h
          have hr : rfind l c ≥ 0 := le_trans (by omega) this
          rw [if_pos hr]
          push_cast
          omega

lemma lastTerm_lt_length (w : List Char) : lastTerm w < (w.length : Int) := by
  unfold lastTerm
  have h1 := rfind_lt_length w '.'
  have h2 := rfind_lt_length w '!'
  have h3 := rfind_lt_length w '?'
  omega

lemma lastTerm_nonneg_term (w : List Char) (h : 0 ≤ lastTerm w) :
    termAt w (lastTerm w).toNat = true := by
  have hchoice : lastTerm w = rfind w '.' ∨ lastTerm w = rfind w '!' ∨
      lastTerm w = rfind w '?' := by
    unfold lastTerm
    rcases max_choice (max (rfind w '.') (rfind w '!')) (rfind w '?') with h1 | h1 <;>
      rw [h1]
    · rcases max_choice (rfind w '.') (rfind w '!') with h2 | h2 <;> rw [h2] <;> simp
    · simp
  rcases hchoice with he | he | he <;>
    · rw [he] at h ⊢
      have := rfind_nonneg_get w _ h
      simp [termAt, this, isTermB]

lemma term_le_lastTerm (w : List Char) (j : Nat) (h : termAt w j = true) :
    (j : Int) ≤ lastTerm w := by
  unfold termAt at h
  cases hj : w[j]? with
  | none => rw [hj] at h; cases h
  | some d =>
      rw [hj] at h
      have hd : d = '.' ∨ d = '!' ∨ d = '?' := by
        simpa [isTermB, or_assoc] using h
      unfold lastTerm
      rcases hd with rfl | rfl | rfl
      · have := rfind_ge_of_getElem w '.' j hj
        omega
      · have := rfind_ge_of_getElem w '!' j hj
        omega
      · have := rfind_ge_of_getElem w '?' j hj
        omega

lemma lastTerm_eq_of_max (w : List Char) (p : Nat) (hp : termAt w p = true)
    (hmax : ∀ j, j < w.length → p < j → termAt w j = false) :
    lastTerm w = (p : Int) := by
  have h1 : (p : Int) ≤ lastTerm w := term_le_lastTerm w p hp
  have h0 : 0 ≤ lastTerm w := le_trans (by positivity) h1
  have h2 := lastTerm_nonneg_term w h0
  have h3 : (lastTerm w).toNat < w.length := by
    have := lastTerm_lt_length w
    omega
  by_contra hne
  have hgt : p < (lastTerm w).toNat := by omega
  rw [hmax _ h3 hgt] at h2
  cases h2

/-- **C5 (amended).** The sentence-aware cut rule: for a window whose
tentative end `start + chunk_size` is interior to the text, if the last
sentence terminator of the window sits at a position `p` **strictly past**
50% of the window (`2 * p > chunk_size`), the chunk is cut just after the
terminator (`start + p + 1`); if it sits at or before 50% — or the window
has no terminator at all — the chunk is cut at the hard boundary
`start + chunk_size`. -/
theorem chunk_cut_rule (text : List Char) (start : Nat)
    (hin : start + 512 < text.length) :
    (∀ p, termAt (pySlice text start (start + 512)) p = true →
        (∀ j, j < (pySlice text start (start + 512)).length → p < j →
          termAt (pySlice text start (start + 512)) j = false) →
        (512 < 2 * p → cutEnd text 512 start = start + p + 1) ∧
          (2 * p ≤ 512 → cutEnd text 512 start = start + 512)) ∧
      ((∀ j, j < (pySlice text start (start + 512)).length →
          termAt (pySlice text start (start + 512)) j = false) →
        cutEnd text 512 start = start + 512) := by
  have hcut : cutEnd text 512 start =
      if 2 * lastTerm (pySlice text start (start + 512)) > (512 : Int) then
        start + (lastTerm (pySlice text start (start + 512))).toNat + 1
      else start + 512 := by
    unfold cutEnd
    rw [if_pos hin]
    rfl
  constructor
  · intro p hp hmax
    have hlt := lastTerm_eq_of_max _ p hp hmax
    constructor
    · intro h2p
      rw [hcut, hlt, if_pos (by push_cast; omega)]
      omega
    · intro h2p
      rw [hcut, hlt, if_neg (by push_cast; omega)]
  · intro hnone
    have hneg : lastTerm (pySlice text start (start + 512)) < 0 := by
      by_contra hge
      push_neg at hge
      have h2 := lastTerm_nonneg_term _ hge
      have h3 : (lastTerm (pySlice text start (start + 512))).toNat <
          (pySlice text start (start + 512)).length := by
        have := lastTerm_lt_length (pySlice text start (start + 512))
        omega
      rw [hnone _ h3] at h2
      cases h2
    rw [hcut, if_neg (by omega)]

/-- **C5 (counterexample).** In a text whose first window's last terminator
sits exactly at index 256 — exactly 50% of the 512-character window, hence
"at or past 50%" as the claim reads — the code cuts at the hard boundary
512, not just after the terminator at 257. -/
theorem chunk_cut_rule_boundary_counterexample :
    termAt (pySlice boundaryDotText 0 512) 256 = true ∧
      (∀ j, j < (pySlice boundaryDotText 0 512).length → 256 < j →
        termAt (pySlice boundaryDotText 0 512) j = false) ∧
      512 ≤ 2 * 256 ∧
      cutEnd boundaryDotText 512 0 = 512 ∧
      (0 : Nat) + 256 + 1 ≠ 512 := by
  refine ⟨?_, ?_, by norm_num, ?_, by norm_num⟩
  · rw [window_boundaryDotText]
    exact termAt_replicate_dot 256 255
  · simp only [window_boundaryDotText]
    intro j hj1 hj2
    refine termAt_replicate_dot_after 256 255 j hj2 ?_
    rw [length_replicate_dot] at hj1
    exact hj1
  · rw [cutEnd_eq_of_interior boundaryDotText 512 0
      (by rw [length_boundaryDotText]; norm_num)]
    simp only [Nat.zero_add]
    rw [window_boundaryDotText, lastTerm_replicate_dot]
    norm_num

/-- Witness for the amended C5: a terminator at index 300 (strictly past
50%) makes the cut land at `start + 300 + 1`. -/
theorem chunk_cut_rule_witness : cutEnd lateDotText 512 0 = 0 + 300 + 1 :=
  ((chunk_cut_rule lateDotText 0 (by rw [length_lateDotText]; norm_num)).1 300
    (by
      show termAt (pySlice lateDotText 0 512) 300 = true
      rw [window_lateDotText]
      exact termAt_replicate_dot 300 211)
    (by
      simp only [Nat.zero_add, window_lateDotText]
      intro j hj1 hj2
      refine termAt_replicate_dot_after 300 211 j hj2 ?_
      rw [length_replicate_dot] at hj1
      exact hj1)).1 (by norm_num)

/-! ### Helper lemmas for C4: slices, stripping and the chunking loop -/

lemma pySlice_length (text : List Char) (a b : Nat) :
    (pySlice text a b).length = min (b - a) (text.length - a) := by
  simp [pySlice]

lemma pySlice_ne_nil (text : List Char) (a b : Nat) (ha : a < text.length)
    (hab : a < b) : pySlice text a b ≠ [] := by
  intro h
  have hl := pySlice_length text a b
  rw [h] at hl
  simp at hl
  omega

lemma mem_pySlice (text : List Char) (a b : Nat) (c : Char)
    (h : c ∈ pySlice text a b) : c ∈ text := by
  unfold pySlice at h
  exact (List.drop_sublist a text).subset ((List.take_sublist _ _).subset h)

lemma pySlice_append_split (text : List Char) (a b c : Nat) (hab : a ≤ b)
    (hbc : b ≤ c) : pySlice text a c = pySlice text a b ++ pySlice text b c := by
  unfold pySlice
  have h1 : c - a = (b - a) + (c - b) := by omega
  rw [h1, List.take_add]
  congr 2
  rw [List.drop_drop]
  congr 1
  omega

lemma pySlice_prefix (text : List Char) (a b b' : Nat) (h : b ≤ b') :
    pySlice text a b <+: pySlice text a b' := by
  unfold pySlice
  have h2 : ((text.drop a).take (b' - a)).take (b - a) = (text.drop a).take (b - a) := by
    rw [List.take_take]
    congr 1
    omega
  rw [← h2]
  exact List.take_prefix _ _

lemma dropWhile_of_head_false (p : Char → Bool) (l : List Char)
    (h : ∀ c ∈ l, p c = false) : l.dropWhile p = l := by
  cases l with
  | nil => rfl
  | cons a l =>
      rw [List.dropWhile_cons, if_neg (by rw [h a (List.mem_cons_self a l)]; simp)]

lemma pyStrip_eq_self (l : List Char) (h : ∀ c ∈ l, c.isWhitespace = false) :
    pyStrip l = l := by
  unfold pyStrip
  rw [dropWhile_of_head_false _ _ h,
    dropWhile_of_head_false _ _ (fun c hc => h c (List.mem_reverse.mp hc)),
    List.reverse_reverse]

lemma dropWhile_replicate_append (p : Char → Bool) (a : Char) (h : p a = true) :
    ∀ (n : Nat) (l : List Char), (List.replicate n a ++ l).dropWhile p = l.dropWhile p := by
  intro n
  induction n with
  | zero => intro l; rfl
  | succ n ih =>
      intro l
      rw [List.replicate_succ, List.cons_append, List.dropWhile_cons, if_pos h, ih]

lemma pyStrip_replicate_space (n : Nat) : pyStrip (List.replicate n ' ') = [] := by
  unfold pyStrip
  have h : List.replicate n ' ' = List.replicate n ' ' ++ [] := by rw [List.append_nil]
  rw [h, dropWhile_replicate_append Char.isWhitespace ' ' (by decide) n []]
  rfl

lemma cutEnd_le_512 (text : List Char) (start : Nat) :
    cutEnd text 512 start ≤ start + 512 := by
  by_cases hin : start + 512 < text.length
  · rw [cutEnd_eq_of_interior text 512 start hin]
    split_ifs with h
    · have hw : (pySlice text start (start + 512)).length = 512 := by
        rw [pySlice_length]
        omega
      have hlt := lastTerm_lt_length (pySlice text start (start + 512))
      rw [hw] at hlt
      omega
    · omega
  · rw [cutEnd_eq_of_tail text 512 start hin]

lemma cutEnd_ge_258 (text : List Char) (start : Nat) :
    start + 258 ≤ cutEnd text 512 start := by
  by_cases hin : start + 512 < text.length
  · rw [cutEnd_eq_of_interior text 512 start hin]
    split_ifs with h
    · omega
    · omega
  · rw [cutEnd_eq_of_tail text 512 start hin]
    omega

/-- One unfolding of the chunking loop when the cursor is inside the text. -/
lemma chunkLoop_succ (text : List Char) (cs ov fuel start : Nat)
    (h : start < text.length) :
    chunkLoop text cs ov (fuel + 1) start =
      if pyStrip (pySlice text start (cutEnd text cs start)) = [] then
        (if cutEnd text cs start - ov ≥ text.length then []
         else chunkLoop text cs ov fuel (cutEnd text cs start - ov))
      else
        pyStrip (pySlice text start (cutEnd text cs start)) ::
          (if cutEnd text cs start - ov ≥ text.length then []
           else chunkLoop text cs ov fuel (cutEnd text cs start - ov)) := by
  show (if start < text.length then _ else []) = _
  rw [if_pos h]

/-- The inductive core of C4 for whitespace-free text: the loop always
produces a non-empty chunk list whose head is the slice of the current
window, whose chunks are all non-empty, whose adjacent chunks share a
non-empty overlap region of at most 50 characters, and which contains at
least two chunks whenever a full window still fits strictly inside the
text. -/
lemma chunkLoop_spec (text : List Char)
    (hNW : ∀ c ∈ text, c.isWhitespace = false) :
    ∀ (fuel start : Nat), start < text.length →
      text.length ≤ start + 208 * fuel →
      chunkLoop text 512 50 fuel start ≠ [] ∧
        (chunkLoop text 512 50 fuel start).head? =
          some (pySlice text start (cutEnd text 512 start)) ∧
        (∀ ch ∈ chunkLoop text 512 50 fuel start, ch ≠ []) ∧
        (chunkLoop text 512 50 fuel start).Chain' (adjOverlap 50) ∧
        (start + 512 < text.length → 2 ≤ (chunkLoop text 512 50 fuel start).length) := by
  intro fuel
  induction fuel with
  | zero =>
      intro start h1 h2
      omega
  | succ fuel ih =>
      intro start h1 h2
      have hge : start + 258 ≤ cutEnd text 512 start := cutEnd_ge_258 text start
      have hle : cutEnd text 512 start ≤ start + 512 := cutEnd_le_512 text start
      have hchunk_ne : pySlice text start (cutEnd text 512 start) ≠ [] :=
        pySlice_ne_nil text start _ h1 (by omega)
      have hstrip : pyStrip (pySlice text start (cutEnd text 512 start)) =
          pySlice text start (cutEnd text 512 start) :=
        pyStrip_eq_self _ (fun c hc => hNW c (mem_pySlice text _ _ c hc))
      rw [chunkLoop_succ text 512 50 fuel start h1, hstrip, if_neg hchunk_ne]
      by_cases hrest : cutEnd text 512 start - 50 ≥ text.length
      · rw [if_pos hrest]
        refine ⟨by simp, by simp, ?_, ?_, ?_⟩
        · intro ch hch
          rw [List.mem_singleton] at hch
          rw [hch]
          exact hchunk_ne
        · exact List.chain'_singleton _
        · intro hlt
          omega
      · rw [if_neg hrest]
        push_neg at hrest
        obtain ⟨ihne, ihhead, ihmem, ihchain, _⟩ :=
          ih (cutEnd text 512 start - 50) (by omega) (by omega)
        refine ⟨by simp, by simp, ?_, ?_, ?_⟩
        · intro ch hch
          rcases List.mem_cons.mp hch with rfl | hch'
          · exact hchunk_ne
          · exact ihmem ch hch'
        · rw [List.chain'_cons']
          refine ⟨?_, ihchain⟩
          intro y hy
          rw [ihhead] at hy
          have hy' : y = pySlice text (cutEnd text 512 start - 50)
              (cutEnd text 512 (cutEnd text 512 start - 50)) := by
            have := hy
            simp only [Option.mem_def, Option.some_inj] at this
            exact this.symm
          have hge' : (cutEnd text 512 start - 50) + 258 ≤
              cutEnd text 512 (cutEnd text 512 start - 50) :=
            cutEnd_ge_258 text (cutEnd text 512 start - 50)
          refine ⟨pySlice text (cutEnd text 512 start - 50) (cutEnd text 512 start),
            ?_, ?_, ?_, ?_⟩
          · exact pySlice_ne_nil text _ _ (by omega) (by omega)
          · rw [pySlice_length]
            omega
          · exact ⟨pySlice text start (cutEnd text 512 start - 50),
              (pySlice_append_split text start (cutEnd text 512 start - 50)
                (cutEnd text 512 start) (by omega) (by omega)).symm⟩
          · rw [hy']
            exact pySlice_prefix text _ _ _ (by omega)
        · intro _
          have hpos : 1 ≤ (chunkLoop text 512 50 fuel
              (cutEnd text 512 start - 50)).length := List.length_pos.mpr ihne
          rw [List.length_cons]
          omega

/-- **C4 (amended).** For every whitespace-free text longer than the default
chunk size, `_chunk_text` returns at least two chunks, every chunk is
non-empty, and each pair of adjacent chunks shares a non-empty overlap
region of length at most `overlap` (a common non-empty suffix/prefix).  The
whitespace-free hypothesis is needed because `strip()` can empty a window or
eat the whole overlap region. -/
theorem chunkText_whitespace_free_spec (text : List Char)
    (hNW : ∀ c ∈ text, c.isWhitespace = false) (hlen : 512 < text.length) :
    2 ≤ (chunkText text).length ∧
      (∀ ch ∈ chunkText text, ch ≠ []) ∧
      (chunkText text).Chain' (adjOverlap 50) := by
  have heq : chunkText text = chunkLoop text 512 50 (text.length + 1) 0 := by
    unfold chunkText
    rw [if_neg (by omega)]
  obtain ⟨_, _, hmem, hchain, htwo⟩ :=
    chunkLoop_spec text hNW (text.length + 1) 0 (by omega) (by omega)
  rw [heq]
  exact ⟨htwo (by omega), hmem, hchain⟩

/-- Witness for the amended C4: 520 letters with no whitespace. -/
theorem chunkText_whitespace_free_spec_witness :
    2 ≤ (chunkText plainText).length ∧
      (∀ ch ∈ chunkText plainText, ch ≠ []) ∧
      (chunkText plainText).Chain' (adjOverlap 50) :=
  chunkText_whitespace_free_spec plainText
    (fun c hc => by rw [List.eq_of_mem_replicate hc]; rfl)
    (by rw [show plainText.length = 520 from by
          show (List.replicate 520 'a').length = 520
          rw [List.length_replicate]]
        norm_num)

/-! ### Symbolic evaluation of the chunker on `spacesText` (C4 counterexample) -/

lemma length_spacesText : spacesText.length = 513 := by
  show (List.replicate 512 ' ' ++ ['a']).length = 513
  rw [List.length_append, List.length_replicate, List.length_singleton]

lemma window1_spacesText : pySlice spacesText 0 512 = List.replicate 512 ' ' := by
  show ((List.replicate 512 ' ' ++ ['a']).drop 0).take (512 - 0) = _
  rw [List.drop_zero, List.take_append_eq_append_take,
    List.take_of_length_le (by rw [List.length_replicate])]
  have h0 : 512 - 0 - (List.replicate 512 ' ').length = 0 := by
    rw [List.length_replicate]
  rw [h0, List.take_zero, List.append_nil]

lemma lastTerm_spaces : lastTerm (List.replicate 512 ' ') = -1 := by
  unfold lastTerm
  rw [rfind_replicate_of_ne 512 ' ' '.' (by decide),
    rfind_replicate_of_ne 512 ' ' '!' (by decide),
    rfind_replicate_of_ne 512 ' ' '?' (by decide)]
  simp

lemma cutEnd1_spacesText : cutEnd spacesText 512 0 = 512 := by
  rw [cutEnd_eq_of_interior spacesText 512 0 (by rw [length_spacesText]; norm_num)]
  simp only [Nat.zero_add]
  rw [window1_spacesText, lastTerm_spaces, if_neg (by norm_num)]

lemma window2_spacesText :
    pySlice spacesText 462 974 = List.replicate 50 ' ' ++ ['a'] := by
  show ((List.replicate 512 ' ' ++ ['a']).drop 462).take (974 - 462) = _
  rw [List.drop_append_eq_append_drop]
  have hd1 : (List.replicate 512 ' ').drop 462 = List.replicate 50 ' ' := by
    rw [List.drop_replicate]
  have hd2 : (462 : Nat) - (List.replicate 512 ' ').length = 0 := by
    rw [List.length_replicate]
  rw [hd1, hd2, List.drop_zero,
    List.take_of_length_le (by
      rw [List.length_append, List.length_replicate, List.length_singleton]
      omega)]

lemma cutEnd2_spacesText : cutEnd spacesText 512 462 = 974 := by
  rw [cutEnd_eq_of_tail spacesText 512 462 (by rw [length_spacesText]; norm_num)]

lemma pyStrip_spaces_singleton :
    pyStrip (List.replicate 50 ' ' ++ ['a']) = ['a'] := by
  unfold pyStrip
  rw [dropWhile_replicate_append Char.isWhitespace ' ' (by decide) 50 ['a']]
  decide

/-- **C4 (counterexample).** The non-empty text of 512 spaces followed by
one letter is longer than the default chunk size, yet `_chunk_text` returns
a single chunk (the first window strips to the empty string and is
discarded), falsifying the claimed "at least 2 chunks". -/
theorem chunking_whitespace_counterexample :
    spacesText ≠ [] ∧ 512 < spacesText.length ∧ (chunkText spacesText).length < 2 := by
  have h1 : chunkText spacesText = chunkLoop spacesText 512 50 (513 + 1) 0 := by
    unfold chunkText
    rw [if_neg (by rw [length_spacesText]; norm_num), length_spacesText]
  have step1 : chunkLoop spacesText 512 50 (513 + 1) 0 =
      chunkLoop spacesText 512 50 513 462 := by
    rw [chunkLoop_succ spacesText 512 50 513 0 (by rw [length_spacesText]; norm_num),
      cutEnd1_spacesText, window1_spacesText, pyStrip_replicate_space,
      if_pos rfl, if_neg (by rw [length_spacesText]; norm_num)]
  have step2 : chunkLoop spacesText 512 50 513 462 = [['a']] := by
    rw [show (513 : Nat) = 512 + 1 from by norm_num,
      chunkLoop_succ spacesText 512 50 512 462 (by rw [length_spacesText]; norm_num),
      cutEnd2_spacesText, window2_spacesText, pyStrip_spaces_singleton,
      if_neg (by decide), if_pos (by rw [length_spacesText]; norm_num)]
  refine ⟨?_, by rw [length_spacesText]; norm_num, ?_⟩
  · intro hnil
    have := length_spacesText
    rw [hnil] at this
    simp at this
  · rw [h1, step1, step2]
    norm_num

end RAG
